import Mathlib

/-!
Shallow embedding of the core logic of Book-safe (dvdsk/Book-safe) and proofs
about its specification claims.

The embedding follows the Rust sources:
  * `src/util.rs`            — `should_lock`, `without_overlapping`
  * `src/sync.rs`            — `sync_routes` resolution loop, `block`/`unblock` retry loops
  * `src/sync/cache.rs`      — `Cached::update`, `n_recent`, `dedup_keep_newest`
  * `src/sync/route.rs`      — result classification of the external `route` tool
  * `src/directory.rs`       — metadata field extraction, `Tree` (indextree arena),
                               `add_file`, `add_folder`, `descendant_files`, `map`

Modelling conventions:
  * machine integers and timestamps are `Nat` (timestamps in seconds,
    durations in the unit noted at each definition);
  * Rust panics / `unwrap` failures / `indextree` panics are `Option.none`;
  * `Vec::sort_unstable_by_key` and `Vec::sort_by_key` are both modelled by a
    stable insertion sort on the key (a deterministic refinement; the
    repository's own unit tests pin down exactly the stable order);
  * external effects (DNS answers, the `route` subprocess, wall-clock time)
    are passed in as explicit data (traces, stub result lists, `now`).
-/

namespace BookSafe

/-! ## `src/util.rs` -/

/-- `util::should_lock`.  A `time::Time` is a packed (hour, minute, second,
nanosecond) value ordered lexicographically; `should_lock` only compares such
values, so a time of day is modelled as the corresponding `Nat` (nanoseconds
since midnight), which is order-isomorphic. -/
def should_lock (now start «end» : Nat) : Bool :=
  if start ≤ «end» then
    decide (now ≥ start) && decide (now ≤ «end»)
  else
    decide (now ≥ start) || decide (now ≤ «end»)

/-- Rust `str::starts_with`: byte-prefix test.  On valid UTF-8, byte prefixes
by whole strings coincide with character-list prefixes. -/
def startsWith (path pre : String) : Bool :=
  pre.data.isPrefixOf path.data

/-- Rust `String::len` (UTF-8 byte length). -/
def byteLen (s : String) : Nat := s.utf8ByteSize

/-- Stable insertion of `x` into `l`, ordered by ascending `key`.  `x` is
placed before the first element of strictly larger key and after earlier
elements of equal key, which is exactly the order a stable sort produces. -/
def insertByKey {α : Type} (key : α → Nat) (x : α) : List α → List α
  | [] => [x]
  | y :: ys => if key x ≤ key y then x :: y :: ys else y :: insertByKey key x ys

/-- Stable sort by ascending `key`; models `sort_by_key` and (as a
deterministic refinement) `sort_unstable_by_key`. -/
def sortByKey {α : Type} (key : α → Nat) : List α → List α
  | [] => []
  | x :: xs => insertByKey key x (sortByKey key xs)

/-- `util::without_overlapping`: sort by ascending byte length, then keep a
path only when no already-kept path is a string prefix of it. -/
def without_overlapping (list : List String) : List String :=
  (sortByKey byteLen list).foldl
    (fun result path =>
      if result.any (fun pre => startsWith path pre) then result
      else result ++ [path])
    []

/-! ## `src/sync/route.rs` and the retry loops in `src/sync.rs`

The external `route` tool is modelled by the list of results its successive
invocations produce.  `route::Error` variants other than `NoEffect` are all
handled identically by the retry loops (returned fatally), and `Ok` is the
"operation went through" outcome. -/

/-- `route::Error` (`src/sync/route.rs`). -/
inductive RouteError
  | start
  | run
  | verifying
  | noEffect
  | routeExists
  | notFound
deriving DecidableEq, Repr

/-- One `route::block`/`route::unblock` invocation result: `none` is `Ok(())`,
`some e` is `Err(e)`. -/
abbrev RouteResult := Option RouteError

/-- How the per-address retry loop in `sync::block`/`sync::unblock`
(`src/sync.rs` lines 105–117 and 142–154) is exited, relative to a finite stub
trace of tool results.  The loop has no successful exit: `Ok(()) => ()` does
not `break`, so the only exits are the two `return Err(..)` arms.
`stillRunning` records that the stub trace was exhausted with the loop still
iterating. -/
inductive LoopExit
  | timedOut
  | fatal (e : RouteError)
  | stillRunning
deriving DecidableEq, Repr

/-- The body of `loop { match route::block(addr) { .. } }` from `sync::block`,
consuming one stub result per iteration.  `attempt` starts at 1 in the caller.
The `unblock` loop (lines 142–154) is structurally identical. -/
def blockLoop (stub : List RouteResult) (attempt : Nat) : LoopExit :=
  match stub with
  | [] => .stillRunning
  | r :: rest =>
    match r with
    | some .noEffect =>
      if attempt > 4 then .timedOut
      else blockLoop rest (attempt + 1)
    | some e => .fatal e
    | none => blockLoop rest attempt

/-! ## the DNS resolution loop in `sync::sync_routes` (`src/sync.rs` 50–86) -/

/-- `trust_dns_resolver` failure kinds as the loop distinguishes them:
`ResolveErrorKind::NoConnections` against everything else. -/
inductive ResKind
  | noConnections
  | other
deriving DecidableEq, Repr

/-- One round of `resolve_sync_routes` as observed by the loop: the resolved
(deduplicated) addresses, the per-host failures, and the value of
`start.elapsed()` (in milliseconds) when the loop checks the timeout after
this round. -/
structure Round where
  resolved : List Nat
  errs : List ResKind
  elapsedMs : Nat
deriving DecidableEq, Repr

/-- `TIMEOUT` in `sync_routes`: 30 s, in milliseconds. -/
def SYNC_TIMEOUT_MS : Nat := 30000

/-- The `loop` in `sync_routes` over a trace of resolution rounds: count the
`NoConnections` failures; if there are none, break with this round's
addresses; otherwise, if the timeout has elapsed, break with the empty list;
otherwise sleep 200 ms and retry.  `none` means the trace was exhausted with
the loop still running. -/
def syncLoop : List Round → Option (List Nat)
  | [] => none
  | r :: rest =>
    let connErrs := r.errs.countP (· == ResKind.noConnections)
    if connErrs == 0 then some r.resolved
    else if r.elapsedMs > SYNC_TIMEOUT_MS then some []
    else syncLoop rest

/-- Modelled from the spec: the loop §4.3 describes — retry exactly when
failures are present and *all* of them are connectivity failures, and on
timeout proceed with whatever this round resolved. -/
def specSyncLoop : List Round → Option (List Nat)
  | [] => none
  | r :: rest =>
    if r.errs ≠ [] ∧ ∀ e ∈ r.errs, e = ResKind.noConnections then
      if r.elapsedMs > SYNC_TIMEOUT_MS then some r.resolved
      else specSyncLoop rest
    else some r.resolved

/-! ## `src/sync/cache.rs`

`IpAddr` is an opaque totally-ordered value here, modelled as `Nat`;
`SystemTime` is modelled as a `Nat` timestamp (seconds since the epoch;
`SystemTime::elapsed` fails when the stamp lies in the future, which truncated
`Nat` subtraction reproduces, see `n_recent` and `purgePass`). -/

/-- `cache::EXPIRATION`: 8 weeks in seconds. -/
def EXPIRATION : Nat := 60 * 60 * 24 * 7 * 4 * 2

/-- `cache::Entry`. -/
structure Entry where
  ip : Nat
  last_updated : Nat
deriving DecidableEq, Repr

/-- `Cached::n_recent` at wall-clock time `now`: entries whose age
(`elapsed().unwrap_or(ZERO)`, i.e. `now - last_updated` truncated at 0) is
strictly below `EXPIRATION`. -/
def n_recent (now : Nat) (entries : List Entry) : Nat :=
  entries.countP (fun e => now - e.last_updated < EXPIRATION)

/-- `Vec::dedup_by_key` on `ip` after the last retained entry `a`: drop an
entry whose ip equals the last retained one's, else retain it. -/
def dedupByIpAux (a : Entry) : List Entry → List Entry
  | [] => []
  | b :: rest =>
    if a.ip == b.ip then dedupByIpAux a rest
    else b :: dedupByIpAux b rest

/-- `Vec::dedup_by_key` on `ip`: removes all but the first of consecutive
entries with the same ip. -/
def dedupByIp : List Entry → List Entry
  | [] => []
  | a :: rest => a :: dedupByIpAux a rest

/-- `cache::dedup_keep_newest`. -/
def dedup_keep_newest (list : List Entry) : List Entry :=
  dedupByIp (sortByKey Entry.ip (sortByKey Entry.last_updated list).reverse)

/-- One check of the purge `while` loop in `Cached::update`: the entry is
removed exactly when `elapsed()` succeeds (`last_updated ≤ now`) and the age
is strictly greater than `EXPIRATION`. -/
def purgeExpired (now : Nat) (e : Entry) : Bool :=
  decide (e.last_updated ≤ now) && decide (now - e.last_updated > EXPIRATION)

/-- The purge `while i < len` loop in `Cached::update` (lines 68–77), with
explicit fuel so the recursion is structural: at index `i`, remove the entry
when `purgeExpired` holds (keeping `i`), else advance `i`.  Each iteration
decreases `l.length - i`, so any fuel exceeding it reproduces the loop. -/
def purgeLoopF : Nat → List Entry → Nat → Nat → List Entry
  | 0, l, _, _ => l
  | fuel + 1, l, now, i =>
    match l.drop i with
    | [] => l
    | e :: _ =>
      if purgeExpired now e then purgeLoopF fuel (l.take i ++ l.drop (i + 1)) now i
      else purgeLoopF fuel l now (i + 1)

/-- The purge loop with sufficient fuel. -/
def purgeLoop (l : List Entry) (now i : Nat) : List Entry :=
  purgeLoopF (l.length + 1 - i) l now i

/-- The `self.0.extend(new.into_iter().map(..))` step of `Cached::update`:
the cache entries with the new addresses appended, each timestamped `now`. -/
def mergedEntries (now : Nat) (cache : List Entry) (new : List Nat) : List Entry :=
  cache ++ new.map (fun ip => ⟨ip, now⟩)

/-- `Cached::update` at wall-clock time `now`: extend with the new addresses
timestamped `now`, dedup keeping the newest per ip, return `none` when empty,
skip the purge when fewer than 2 entries are recent, otherwise purge. -/
def update (now : Nat) (cache : List Entry) (new : List Nat) : Option (List Entry) :=
  let merged := dedup_keep_newest (mergedEntries now cache new)
  if merged.isEmpty then none
  else if n_recent now merged < 2 then some merged
  else some (purgeLoop merged now 0)

/-- `Cached::blocked_ips` / `Routes::into_ips`. -/
def blocked_ips (entries : List Entry) : List Nat := entries.map Entry.ip

/-! ## `src/directory.rs` — the indextree arena

`indextree::Arena<()>` stores nodes addressed by dense indices; each node
carries a parent link and an ordered child list.  `NodeId::append` follows
indextree's documented contract: it first detaches the new child from its
current parent, then appends it after the existing children, and it panics
(here: `none`) when the new child is the node itself or one of its
ancestors. -/

/-- One arena slot. -/
structure ArenaNode where
  parent : Option Nat
  children : List Nat
deriving DecidableEq, Repr

abbrev Arena := List ArenaNode

/-- `Arena::new_node`: returns the fresh index and the grown arena. -/
def newNode (a : Arena) : Nat × Arena :=
  (a.length, a ++ [⟨none, []⟩])

/-- Replace slot `i` by `f` of it (out-of-range is a no-op). -/
def updateAt : Arena → Nat → (ArenaNode → ArenaNode) → Arena
  | [], _, _ => []
  | n :: rest, 0, f => f n :: rest
  | n :: rest, i + 1, f => n :: updateAt rest i f

/-- The parent link of slot `n`. -/
def parentOf (a : Arena) (n : Nat) : Option Nat :=
  (a.get? n).bind ArenaNode.parent

/-- The child list of slot `n`. -/
def childrenOf (a : Arena) (n : Nat) : List Nat :=
  ((a.get? n).map ArenaNode.children).getD []

/-- The parent chain starting from `start` (`none` when absent), fuel-bounded
so the function is total even on a corrupted (cyclic) arena. -/
def chainAux (a : Arena) : Nat → Option Nat → List Nat
  | _, none => []
  | 0, some _ => []
  | fuel + 1, some n => n :: chainAux a fuel (parentOf a n)

/-- `indextree::NodeId::ancestors`: the node itself followed by its ancestors.
On an acyclic arena the chain has at most `a.length` nodes, so the fuel
`a.length + 1` never cuts it short. -/
def ancestors (a : Arena) (n : Nat) : List Nat :=
  chainAux a (a.length + 1) (some n)

/-- Detach `c` from its current parent (first step of `append`). -/
def detach (a : Arena) (c : Nat) : Arena :=
  match parentOf a c with
  | none => a
  | some p =>
    updateAt (updateAt a p (fun nd => { nd with children := nd.children.erase c })) c
      (fun nd => { nd with parent := none })

/-- `indextree::NodeId::append`: `appendNode a p c` makes `c` the last child
of `p`.  Panics (`none`) when `c` is `p` itself or an ancestor of `p`. -/
def appendNode (a : Arena) (p c : Nat) : Option Arena :=
  if c ∈ ancestors a p then none
  else
    let a1 := detach a c
    let a2 := updateAt a1 c (fun nd => { nd with parent := some p })
    some (updateAt a2 p (fun nd => { nd with children := nd.children ++ [c] }))

/-- `indextree::NodeId::descendants`: depth-first pre-order over the child
lists, fuel-bounded by the depth; on an acyclic arena every descending chain
has at most `a.length` nodes, so fuel `a.length + 1` is never exhausted. -/
def descAux (a : Arena) : Nat → Nat → List Nat
  | 0, _ => []
  | fuel + 1, n => n :: (childrenOf a n).flatMap (descAux a fuel)

/-- `NodeId::descendants` with sufficient fuel. -/
def descendants (a : Arena) (n : Nat) : List Nat :=
  descAux a (a.length + 1) n

/-! ## `src/directory.rs` — the `Tree` -/

/-- `directory::Tree`.  The three `HashMap`s are modelled as association
lists in which an insert prepends and a lookup takes the first match, which
reproduces insert-overwrite semantics. -/
structure Tree where
  arena : Arena
  node : List (String × Nat)
  name : List (Nat × String)
  files : List (Nat × List (String × String))
deriving DecidableEq, Repr

/-- `HashMap::get` on the uuid → node map. -/
def lookupNode (t : Tree) (uuid : String) : Option Nat :=
  (t.node.find? (fun kv => kv.1 == uuid)).map Prod.snd

/-- `HashMap::get` on the node → name map. -/
def lookupName (t : Tree) (n : Nat) : Option String :=
  (t.name.find? (fun kv => kv.1 == n)).map Prod.snd

/-- `HashMap::get` on the node → files map. -/
def lookupFiles (t : Tree) (n : Nat) : Option (List (String × String)) :=
  (t.files.find? (fun kv => kv.1 == n)).map Prod.snd

/-- `Tree::add_root`. -/
def Tree.addRoot (t : Tree) (uuid nm : String) : Tree :=
  let (nodeId, arena) := newNode t.arena
  { t with
    arena := arena
    node := (uuid, nodeId) :: t.node
    name := (nodeId, nm) :: t.name }

/-- `Tree::new`: the trash root (slot 0) then the main root (slot 1). -/
def Tree.new : Tree :=
  (Tree.addRoot (Tree.addRoot ⟨[], [], [], []⟩ "trash" "trash") "" "")

/-- `Tree::add_file`: create-or-reuse the parent's node and push
`{uuid, name}` onto its file list. -/
def Tree.add_file (t : Tree) (uuid parent_uuid nm : String) : Tree :=
  let (parentNode, t1) :=
    match lookupNode t parent_uuid with
    | some n => (n, t)
    | none =>
      let (parentNode, arena) := newNode t.arena
      (parentNode, { t with arena := arena, node := (parent_uuid, parentNode) :: t.node })
  match lookupFiles t1 parentNode with
  | some list => { t1 with files := (parentNode, list ++ [(uuid, nm)]) :: t1.files }
  | none => { t1 with files := (parentNode, [(uuid, nm)]) :: t1.files }

/-- `Tree::add_folder`: create-or-reuse the folder's node, set its name,
create-or-reuse the parent's node, and append the folder under the parent.
`none` is the indextree `append` panic. -/
def Tree.add_folder (t : Tree) (uuid parent_uuid nm : String) : Option Tree :=
  let (nodeId, t1) :=
    match lookupNode t uuid with
    | some n => (n, t)
    | none =>
      let (nodeId, arena) := newNode t.arena
      (nodeId, { t with arena := arena, node := (uuid, nodeId) :: t.node })
  let t2 := { t1 with name := (nodeId, nm) :: t1.name }
  let (parentNodeId, t3) :=
    match lookupNode t2 parent_uuid with
    | some p => (p, t2)
    | none =>
      let (parentNodeId, arena) := newNode t2.arena
      (parentNodeId, { t2 with arena := arena, node := (parent_uuid, parentNodeId) :: t2.node })
  (appendNode t3.arena parentNodeId nodeId).map (fun arena => { t3 with arena := arena })

/-- `Tree::descendant_files`: the uuids of the files of every node in the
subtree of `subroot`, in depth-first pre-order. -/
def Tree.descendant_files (t : Tree) (subroot : Nat) : List String :=
  (descendants t.arena subroot).flatMap
    (fun folder =>
      match lookupFiles t folder with
      | some content => content.map Prod.fst
      | none => [])

/-! ## `src/directory.rs` — metadata records and `map` -/

/-- An `ItemRecord` as fed to the tree: a `add_folder` or `add_file` call. -/
inductive Item
  | folder (uuid parent nm : String)
  | file (uuid parent nm : String)
deriving DecidableEq, Repr

def Item.uuid : Item → String
  | .folder u _ _ => u
  | .file u _ _ => u

def Item.parent : Item → String
  | .folder _ p _ => p
  | .file _ p _ => p

def Item.nm : Item → String
  | .folder _ _ n => n
  | .file _ _ n => n

def Item.isFolder : Item → Bool
  | .folder _ _ _ => true
  | .file _ _ _ => false

/-- Apply one record to the tree (`map`'s match on `is_folder`). -/
def applyItem (t : Tree) : Item → Option Tree
  | .folder u p n => t.add_folder u p n
  | .file u p n => some (t.add_file u p n)

/-- Fold a record list over a starting tree; `none` as soon as a step
panics. -/
def buildFrom (t : Tree) : List Item → Option Tree
  | [] => some t
  | it :: rest =>
    match applyItem t it with
    | none => none
    | some t' => buildFrom t' rest

/-- Build a tree from records, starting from `Tree::new`. -/
def buildItems (items : List Item) : Option Tree :=
  buildFrom Tree.new items

/-- A raw metadata field value: the regex in `extract_field` captures the
content of a quoted value and yields no capture for an unquoted one. -/
inductive FieldVal
  | str (s : String)
  | raw
deriving DecidableEq, Repr

/-- A `.metadata` document modelled as its ordered field list (the regex's
first-match extraction becomes a first-key lookup). -/
abbrev Metadata := List (String × FieldVal)

/-- `directory::extract_field`: first match wins; only a quoted value
produces `Some`. -/
def extract_field (metadata : Metadata) (field : String) : Option String :=
  match metadata.find? (fun kv => kv.1 == field) with
  | some (_, .str s) => some s
  | _ => none

/-- `directory::parent`. -/
def parentField (metadata : Metadata) : Option String :=
  extract_field metadata "parent"

/-- `directory::name`. -/
def nameField (metadata : Metadata) : Option String :=
  extract_field metadata "visibleName"

/-- `directory::is_folder`: `unwrap` of the "type" field and the `panic!` on
an unexpected value both become `none`. -/
def is_folder (metadata : Metadata) : Option Bool :=
  match extract_field metadata "type" with
  | some "DocumentType" => some false
  | some "CollectionType" => some true
  | _ => none

/-- Parse one on-storage record (uuid from the file stem plus its metadata
text) into an `Item`; `none` models the `unwrap` panics in `map`. -/
def parseRecord (rec : String × Metadata) : Option Item :=
  match parentField rec.2, nameField rec.2, is_folder rec.2 with
  | some p, some n, some true => some (.folder rec.1 p n)
  | some p, some n, some false => some (.file rec.1 p n)
  | _, _, _ => none

/-- `directory::map` without the I/O: process each record in directory
order, panicking (`none`) on the first record that fails to parse. -/
def mapRecords : Tree → List (String × Metadata) → Option Tree
  | t, [] => some t
  | t, rec :: rest =>
    match parseRecord rec with
    | none => none
    | some it =>
      match applyItem t it with
      | none => none
      | some t' => mapRecords t' rest

/-- `map` from `Tree::new`. -/
def mapAll (recs : List (String × Metadata)) : Option Tree :=
  mapRecords Tree.new recs

/-! ## Arena well-formedness

The parent links of an arena form a functional graph; `parIter a j n` follows
them `j` steps.  Acyclicity, parent/child-list consistency and index bounds
together form the arena invariant `ArenaWF` that `Tree::new` establishes and
the tree operations preserve. -/

/-- Follow parent links `j` steps from `n` (`none` once a root is passed). -/
def parIter (a : Arena) : Nat → Nat → Option Nat
  | 0, n => some n
  | j + 1, n =>
    match parentOf a n with
    | none => none
    | some q => parIter a j q

/-- Splitting a parent walk. -/
theorem parIter_add (a : Arena) :
    ∀ (i j n : Nat), parIter a (i + j) n = (parIter a i n).bind (parIter a j) := by
  intro i
  induction i with
  | zero => intro j n; simp [parIter]
  | succ i ih =>
    intro j n
    rw [show i + 1 + j = (i + j) + 1 from by omega]
    show (match parentOf a n with
      | none => none
      | some q => parIter a (i + j) q) =
      ((match parentOf a n with
        | none => none
        | some q => parIter a i q : Option Nat)).bind (parIter a j)
    rcases hp : parentOf a n with _ | q
    · rfl
    · exact ih j q

/-- Membership in a fuel-bounded ancestor chain is a bounded parent walk. -/
theorem mem_chainAux_iff (a : Arena) :
    ∀ (fuel n m : Nat),
      m ∈ chainAux a fuel (some n) ↔ ∃ j < fuel, parIter a j n = some m := by
  intro fuel
  induction fuel with
  | zero =>
    intro n m
    simp [chainAux]
  | succ fuel ih =>
    intro n m
    have hstep : chainAux a (fuel + 1) (some n) = n :: chainAux a fuel (parentOf a n) := by
      simp only [chainAux]
    have hiterstep : ∀ j, parIter a (j + 1) n =
        (match parentOf a n with
         | none => none
         | some q => parIter a j q : Option Nat) := fun _ => rfl
    rw [hstep]
    constructor
    · intro hm
      rcases List.mem_cons.mp hm with rfl | hm'
      · exact ⟨0, by omega, rfl⟩
      · rcases hq : parentOf a n with _ | q
        · rw [hq] at hm'
          exact absurd hm' (by simp [chainAux])
        · rw [hq] at hm'
          rcases (ih q m).mp hm' with ⟨j, hj, hiter⟩
          refine ⟨j + 1, by omega, ?_⟩
          rw [hiterstep j, hq]
          exact hiter

    · rintro ⟨j, hj, hiter⟩
      match j with
      | 0 =>
        cases hiter
        exact List.mem_cons_self ..
      | j + 1 =>
        rcases hq : parentOf a n with _ | q
        · rw [hiterstep j, hq] at hiter
          exact absurd hiter (by simp)
        · rw [hiterstep j, hq] at hiter
          refine List.mem_cons_of_mem _ ?_
          exact (ih q m).mpr ⟨j, by omega, hiter⟩

/-- Out of range, there is no node and hence no parent. -/
theorem parentOf_ge (a : Arena) (n : Nat) (h : a.length ≤ n) : parentOf a n = none := by
  unfold parentOf
  rw [List.get?_eq_none.mpr h]
  rfl

/-- A node with a parent is in range. -/
theorem lt_of_parentOf_some (a : Arena) (n p : Nat) (h : parentOf a n = some p) :
    n < a.length := by
  by_contra hge
  rw [parentOf_ge a n (Nat.le_of_not_lt hge)] at h
  exact Option.noConfusion h

/-- Out of range, there is no node and hence no child list. -/
theorem childrenOf_ge (a : Arena) (n : Nat) (h : a.length ≤ n) : childrenOf a n = [] := by
  unfold childrenOf
  rw [List.get?_eq_none.mpr h]
  rfl

/-- A node with a child is in range. -/
theorem lt_of_mem_childrenOf (a : Arena) (p c : Nat) (h : c ∈ childrenOf a p) :
    p < a.length := by
  by_contra hge
  rw [childrenOf_ge a p (Nat.le_of_not_lt hge)] at h
  exact absurd h (by simp)

/-- The arena invariant: parent and child indices are in range, the parent
pointer of `c` is `p` exactly when `c` is in `p`'s child list (so every node
has at most one parent), child lists have no duplicates, and no bounded
parent walk returns to its start — the graph is acyclic. -/
structure ArenaWF (a : Arena) : Prop where
  parent_lt : ∀ n p, parentOf a n = some p → p < a.length
  child_lt : ∀ p c, c ∈ childrenOf a p → c < a.length
  pc : ∀ c p, parentOf a c = some p ↔ c ∈ childrenOf a p
  childNodup : ∀ p, (childrenOf a p).Nodup
  acyclic : ∀ n, n < a.length → ∀ j, 0 < j → j ≤ a.length → parIter a j n ≠ some n

/-- Decidable check for `ArenaWF` (quantifiers bounded by the arena size). -/
def arenaWFB (a : Arena) : Bool :=
  (List.range a.length).all fun n =>
    (match parentOf a n with
     | some p => decide (p < a.length)
     | none => true) &&
    ((childrenOf a n).all fun c => decide (c < a.length)) &&
    decide ((childrenOf a n).Nodup) &&
    ((List.range a.length).all fun p =>
      decide (parentOf a n = some p) == decide (n ∈ childrenOf a p)) &&
    ((List.range a.length).all fun jm => !(parIter a (jm + 1) n == some n))

/-- `arenaWFB` implies the invariant. -/
theorem arenaWFB_sound (a : Arena) (h : arenaWFB a = true) : ArenaWF a := by
  have hall := List.all_eq_true.mp h
  have fields : ∀ n, n < a.length →
      (∀ p, parentOf a n = some p → p < a.length) ∧
      ((childrenOf a n).all fun c => decide (c < a.length)) = true ∧
      (childrenOf a n).Nodup ∧
      (∀ p, p < a.length →
        (decide (parentOf a n = some p) == decide (n ∈ childrenOf a p)) = true) ∧
      (∀ jm, jm < a.length → parIter a (jm + 1) n ≠ some n) := by
    intro n hn
    have := hall n (List.mem_range.mpr hn)
    simp only [Bool.and_eq_true, List.all_eq_true] at this
    refine ⟨?_, ?_, ?_, ?_, ?_⟩
    · intro p hp
      rcases this with ⟨⟨⟨⟨h1, _⟩, _⟩, _⟩, _⟩
      rw [hp] at h1
      exact of_decide_eq_true h1
    · exact List.all_eq_true.mpr (fun c hc => by
        rcases this with ⟨⟨⟨⟨_, h2⟩, _⟩, _⟩, _⟩
        exact h2 c hc)
    · rcases this with ⟨⟨⟨_, h3⟩, _⟩, _⟩
      exact of_decide_eq_true h3
    · intro p hp
      rcases this with ⟨⟨_, h4⟩, _⟩
      exact h4 p (List.mem_range.mpr hp)
    · intro jm hjm
      rcases this with ⟨_, h5⟩
      have := h5 jm (List.mem_range.mpr hjm)
      simpa using this
  refine ⟨?_, ?_, ?_, ?_, ?_⟩
  · intro n p hp
    have hn := lt_of_parentOf_some a n p hp
    exact (fields n hn).1 p hp
  · intro p c hc
    have hp := lt_of_mem_childrenOf a p c hc
    have h2 := (fields p hp).2.1
    exact of_decide_eq_true (List.all_eq_true.mp h2 c hc)
  · intro c p
    constructor
    · intro hcp
      have hc := lt_of_parentOf_some a c p hcp
      have hplt : p < a.length := (fields c hc).1 p hcp
      have h4 := (fields c hc).2.2.2.1 p hplt
      have : (parentOf a c = some p) ↔ (c ∈ childrenOf a p) := by
        rw [← decide_eq_decide]
        exact eq_of_beq h4
      exact this.mp hcp
    · intro hmem
      have hp := lt_of_mem_childrenOf a p c hmem
      have hc : c < a.length := by
        have h2 := (fields p hp).2.1
        exact of_decide_eq_true (List.all_eq_true.mp h2 c hmem)
      have h4 := (fields c hc).2.2.2.1 p hp
      have : (parentOf a c = some p) ↔ (c ∈ childrenOf a p) := by
        rw [← decide_eq_decide]
        exact eq_of_beq h4
      exact this.mpr hmem
  · intro p
    by_cases hp : p < a.length
    · exact (fields p hp).2.2.1
    · rw [childrenOf_ge a p (Nat.le_of_not_lt hp)]
      exact List.Pairwise.nil
  · intro n hn j hj hjle
    have := (fields n hn).2.2.2.2 (j - 1) (by omega)
    rwa [show j - 1 + 1 = j from by omega] at this

/-- A parent walk starting in range stays in range (given `parent_lt`). -/
theorem parIter_lt (a : Arena)
    (hpl : ∀ n p, parentOf a n = some p → p < a.length) :
    ∀ (j n m : Nat), n < a.length → parIter a j n = some m → m < a.length := by
  intro j
  induction j with
  | zero => intro n m hn h; cases h; exact hn
  | succ j ih =>
    intro n m hn h
    rw [show parIter a (j + 1) n = (match parentOf a n with
      | none => none
      | some q => parIter a j q : Option Nat) from rfl] at h
    rcases hq : parentOf a n with _ | q
    · rw [hq] at h; exact absurd h (by simp)
    · rw [hq] at h
      exact ih q m (hpl n q hq) h

/-- A walk that returns is `some` at every intermediate length. -/
theorem parIter_some_of_le (a : Arena) (j n m : Nat) (h : parIter a j n = some m) :
    ∀ i ≤ j, ∃ v, parIter a i n = some v := by
  intro i hi
  rcases hv : parIter a i n with _ | v
  · exfalso
    have := parIter_add a i (j - i) n
    rw [show i + (j - i) = j from by omega, h, hv] at this
    exact Option.noConfusion this
  · exact ⟨v, rfl⟩

/-- Bounded acyclicity rules out cycles of any length (pigeonhole). -/
theorem acyclic_unbounded (a : Arena)
    (hpl : ∀ n p, parentOf a n = some p → p < a.length)
    (hacyc : ∀ n, n < a.length → ∀ j, 0 < j → j ≤ a.length → parIter a j n ≠ some n) :
    ∀ n, n < a.length → ∀ j, 0 < j → parIter a j n ≠ some n := by
  intro n hn j hj
  by_cases hjle : j ≤ a.length
  · exact hacyc n hn j hj hjle
  · intro hcycle
    have hsome : ∀ i ≤ j, ∃ v, parIter a i n = some v :=
      parIter_some_of_le a j n n hcycle
    have hvlt : ∀ i ≤ j, ∀ v, parIter a i n = some v → v < a.length := by
      intro i _ v hv
      exact parIter_lt a hpl i n v hn hv
    have hmaps : ∀ i ∈ Finset.range (a.length + 1),
        (parIter a i n).getD 0 ∈ Finset.range a.length := by
      intro i hi
      have hile : i ≤ j := by
        have := Finset.mem_range.mp hi
        omega
      rcases hsome i hile with ⟨v, hv⟩
      rw [hv]
      exact Finset.mem_range.mpr (hvlt i hile v hv)
    have hcard : (Finset.range a.length).card < (Finset.range (a.length + 1)).card := by
      simp
    rcases Finset.exists_ne_map_eq_of_card_lt_of_maps_to hcard hmaps with
      ⟨i, hi, k, hk, hik, heq⟩
    have hi' := Finset.mem_range.mp hi
    have hk' := Finset.mem_range.mp hk
    rcases Nat.lt_or_ge i k with hlt | hge
    · rcases hsome i (by omega) with ⟨v, hv⟩
      rcases hsome k (by omega) with ⟨w, hw⟩
      have hvw : v = w := by
        rw [hv, hw] at heq
        simpa using heq
      subst hvw
      have hsplit := parIter_add a i (k - i) n
      rw [show i + (k - i) = k from by omega, hv, hw] at hsplit
      exact hacyc v (hvlt i (by omega) v hv) (k - i) (by omega) (by omega) hsplit.symm
    · have hlt : k < i := by omega
      rcases hsome k (by omega) with ⟨v, hv⟩
      rcases hsome i (by omega) with ⟨w, hw⟩
      have hvw : v = w := by
        rw [hv, hw] at heq
        simpa using heq.symm
      subst hvw
      have hsplit := parIter_add a k (i - k) n
      rw [show k + (i - k) = i from by omega, hv, hw] at hsplit
      exact hacyc v (hvlt k (by omega) v hv) (i - k) (by omega) (by omega) hsplit.symm

/-! ## Effect of `updateAt` and `appendNode` on the arena -/

/-- `updateAt` preserves the arena size. -/
theorem updateAt_length : ∀ (a : Arena) (i : Nat) (f : ArenaNode → ArenaNode),
    (updateAt a i f).length = a.length := by
  intro a
  induction a with
  | nil => intro i f; cases i <;> rfl
  | cons nd rest ih =>
    intro i f
    cases i with
    | zero => rfl
    | succ i => simpa [updateAt] using ih i f

/-- Pointwise description of `updateAt`. -/
theorem get?_updateAt : ∀ (a : Arena) (i : Nat) (f : ArenaNode → ArenaNode) (j : Nat),
    (updateAt a i f).get? j = if i = j then (a.get? j).map f else a.get? j := by
  intro a
  induction a with
  | nil =>
    intro i f j
    cases i <;> cases j <;> simp [updateAt]
  | cons nd rest ih =>
    intro i f j
    cases i with
    | zero =>
      cases j with
      | zero => simp [updateAt]
      | succ j => simp [updateAt]
    | succ i =>
      cases j with
      | zero => simp [updateAt]
      | succ j =>
        show (updateAt rest i f).get? j = _
        rw [ih i f j]
        simp

/-- Appending to a node's child list does not change any parent pointer. -/
theorem parentOf_update_appendChild (a : Arena) (p x m : Nat) :
    parentOf (updateAt a p (fun nd => { nd with children := nd.children ++ [x] })) m =
      parentOf a m := by
  unfold parentOf
  rw [get?_updateAt]
  split
  · rcases a.get? m with _ | nd <;> rfl
  · rfl

/-- Updating a node's parent does not change any child list. -/
theorem childrenOf_update_parent (a : Arena) (c : Nat) (v : Option Nat) (m : Nat) :
    childrenOf (updateAt a c (fun nd => { nd with parent := v })) m =
      childrenOf a m := by
  unfold childrenOf
  rw [get?_updateAt]
  split
  · rcases a.get? m with _ | nd <;> rfl
  · rfl

/-- The child list of the node a child is appended to. -/
theorem childrenOf_update_appendChild_same (a : Arena) (p x : Nat)
    (hp : p < a.length) :
    childrenOf (updateAt a p (fun nd => { nd with children := nd.children ++ [x] })) p =
      childrenOf a p ++ [x] := by
  unfold childrenOf
  rw [get?_updateAt, if_pos rfl]
  rcases h : a.get? p with _ | nd
  · exact absurd h (by simp [List.get?_eq_none]; omega)
  · rfl

/-- Other nodes' child lists are untouched by the append. -/
theorem childrenOf_update_appendChild_other (a : Arena) (p x m : Nat) (hm : p ≠ m) :
    childrenOf (updateAt a p (fun nd => { nd with children := nd.children ++ [x] })) m =
      childrenOf a m := by
  unfold childrenOf
  rw [get?_updateAt, if_neg hm]

/-- The updated node's parent pointer. -/
theorem parentOf_update_parent_same (a : Arena) (c : Nat) (v : Option Nat)
    (hc : c < a.length) :
    parentOf (updateAt a c (fun nd => { nd with parent := v })) c = v := by
  unfold parentOf
  rw [get?_updateAt, if_pos rfl]
  rcases h : a.get? c with _ | nd
  · exact absurd h (by simp [List.get?_eq_none]; omega)
  · rfl

/-- Other nodes' parent pointers are untouched. -/
theorem parentOf_update_parent_other (a : Arena) (c : Nat) (v : Option Nat)
    (m : Nat) (hm : c ≠ m) :
    parentOf (updateAt a c (fun nd => { nd with parent := v })) m = parentOf a m := by
  unfold parentOf
  rw [get?_updateAt, if_neg hm]

/-- Walks agree between arenas whose parent pointers agree away from `c`, as
long as the walk avoids `c`. -/
theorem parIter_congr_avoid (a a' : Arena) (c : Nat)
    (h : ∀ m, m ≠ c → parentOf a' m = parentOf a m) :
    ∀ (j n : Nat), (∀ k < j, ∀ y, parIter a' k n = some y → y ≠ c) →
      parIter a' j n = parIter a j n := by
  intro j
  induction j with
  | zero => intro n _; rfl
  | succ j ih =>
    intro n havoid
    have hn : n ≠ c := havoid 0 (by omega) n rfl
    have hstep : ∀ (b : Arena) (i : Nat), parIter b (i + 1) n =
        (match parentOf b n with
         | none => none
         | some q => parIter b i q : Option Nat) := fun _ _ => rfl
    rw [hstep a' j, hstep a j, h n hn]
    rcases hq : parentOf a n with _ | q
    · rfl
    · refine ih q ?_
      intro k hk y hy
      refine havoid (k + 1) (by omega) y ?_
      rw [hstep a' k, h n hn, hq]
      exact hy

/-- A walk reaching `c` has a first time it does so. -/
theorem exists_min_reach (a' : Arena) (c : Nat) :
    ∀ (i p : Nat), parIter a' i p = some c →
      ∃ i' ≤ i, parIter a' i' p = some c ∧
        ∀ k < i', ∀ y, parIter a' k p = some y → y ≠ c := by
  intro i
  induction i using Nat.strong_induction_on with
  | _ i IH =>
    intro p hp
    by_cases hex : ∃ k < i, parIter a' k p = some c
    · rcases hex with ⟨k, hk, hkc⟩
      rcases IH k hk p hkc with ⟨i', hi', hc', havoid⟩
      exact ⟨i', by omega, hc', havoid⟩
    · push_neg at hex
      refine ⟨i, Nat.le_refl _, hp, ?_⟩
      intro k hk y hy
      intro hyc
      subst hyc
      exact hex k hk hy

/-- `appendNode a p c` on a well-formed arena, when `c` currently has no
parent: the result is well-formed, the arena keeps its size, `c`'s parent
becomes `p`, all other parent pointers are unchanged, and only `p`'s child
list changes, by appending `c`. -/
theorem appendNode_wf (a : Arena) (p c : Nat) (a' : Arena) (hwf : ArenaWF a)
    (hp : p < a.length) (hc : c < a.length) (hcpar : parentOf a c = none)
    (happ : appendNode a p c = some a') :
    ArenaWF a' ∧ a'.length = a.length ∧
    parentOf a' c = some p ∧
    (∀ m, m ≠ c → parentOf a' m = parentOf a m) ∧
    childrenOf a' p = childrenOf a p ++ [c] ∧
    (∀ q, q ≠ p → childrenOf a' q = childrenOf a q) := by
  have hguard : ¬ c ∈ ancestors a p := by
    intro hmem
    rw [appendNode, if_pos hmem] at happ
    exact Option.noConfusion happ
  have ha' : a' = updateAt (updateAt a c (fun nd => { nd with parent := some p })) p
      (fun nd => { nd with children := nd.children ++ [c] }) := by
    rw [appendNode, if_neg hguard] at happ
    have hdet : detach a c = a := by
      unfold detach
      rw [hcpar]
    rw [hdet] at happ
    exact (Option.some.injEq .. ▸ happ).symm
  have hnc : ∀ j, j < a.length + 1 → parIter a j p ≠ some c := by
    intro j hj hiter
    exact hguard ((mem_chainAux_iff a (a.length + 1) p c).mpr ⟨j, hj, hiter⟩)
  have hcnep : c ≠ p := by
    intro h
    exact hnc 0 (by omega) (by rw [h]; rfl)
  have hlen : a'.length = a.length := by
    rw [ha', updateAt_length, updateAt_length]
  have hparC : parentOf a' c = some p := by
    rw [ha', parentOf_update_appendChild, parentOf_update_parent_same a c _ hc]
  have hparO : ∀ m, m ≠ c → parentOf a' m = parentOf a m := by
    intro m hm
    rw [ha', parentOf_update_appendChild,
      parentOf_update_parent_other a c _ m (fun h => hm h.symm)]
  have hchP : childrenOf a' p = childrenOf a p ++ [c] := by
    rw [ha', childrenOf_update_appendChild_same _ p _ (by rw [updateAt_length]; omega),
      childrenOf_update_parent]
  have hchO : ∀ q, q ≠ p → childrenOf a' q = childrenOf a q := by
    intro q hq
    rw [ha', childrenOf_update_appendChild_other _ p _ q (fun h => hq h.symm),
      childrenOf_update_parent]
  refine ⟨?_, hlen, hparC, hparO, hchP, hchO⟩
  refine ⟨?_, ?_, ?_, ?_, ?_⟩
  · intro n q hq
    by_cases hn : n = c
    · subst hn
      rw [hparC] at hq
      cases hq
      omega
    · rw [hparO n hn] at hq
      have := hwf.parent_lt n q hq
      omega
  · intro q x hx
    by_cases hqp : q = p
    · subst hqp
      rw [hchP] at hx
      rcases List.mem_append.mp hx with hx' | hx'
      · have := hwf.child_lt q x hx'
        omega
      · simp at hx'
        omega
    · rw [hchO q hqp] at hx
      have := hwf.child_lt q x hx
      omega
  · intro x q
    by_cases hx : x = c
    · subst hx
      rw [hparC]
      by_cases hqp : q = p
      · subst hqp
        rw [hchP]
        simp
      · rw [hchO q hqp]
        constructor
        · intro h
          cases h
          exact absurd rfl hqp
        · intro hmem
          have := (hwf.pc x q).mpr hmem
          rw [hcpar] at this
          exact Option.noConfusion this
    · rw [hparO x hx]
      by_cases hqp : q = p
      · subst hqp
        rw [hchP]
        constructor
        · intro h
          exact List.mem_append_left _ ((hwf.pc x q).mp h)
        · intro hmem
          rcases List.mem_append.mp hmem with h | h
          · exact (hwf.pc x q).mpr h
          · simp at h
            exact absurd h hx
      · rw [hchO q hqp]
        exact hwf.pc x q
  · intro q
    by_cases hqp : q = p
    · subst hqp
      rw [hchP]
      refine List.Nodup.append (hwf.childNodup q) (List.nodup_singleton c) ?_
      intro x hx hx'
      simp at hx'
      subst hx'
      have := (hwf.pc x q).mpr hx
      rw [hcpar] at this
      exact Option.noConfusion this
    · rw [hchO q hqp]
      exact hwf.childNodup q
  · -- acyclicity
    intro n hn j hj hjle
    rw [hlen] at hn hjle
    intro hcycle
    by_cases hvisit : ∃ k < j, parIter a' k n = some c
    · -- rotate the cycle to `c`, then its first return to `c` gives an old
      -- walk from `p` to `c`, contradicting the append guard
      rcases hvisit with ⟨k, hk, hkc⟩
      have hrot : parIter a' j c = some c := by
        have h1 : parIter a' (j + k) n = some c := by
          rw [parIter_add, hcycle]
          exact hkc
        have h2 : parIter a' (k + j) n = (parIter a' k n).bind (parIter a' j) :=
          parIter_add a' k j n
        rw [show k + j = j + k from by omega, h1, hkc] at h2
        exact h2.symm
      have hstep : parIter a' j c =
          (match parentOf a' c with
           | none => none
           | some q => parIter a' (j - 1) q : Option Nat) := by
        rw [show j = (j - 1) + 1 from by omega]
        rfl
      rw [hstep, hparC] at hrot
      rcases exists_min_reach a' c (j - 1) p hrot with ⟨i', hi'le, hi'c, havoid⟩
      have hold : parIter a i' p = some c := by
        rw [← parIter_congr_avoid a a' c hparO i' p havoid]
        exact hi'c
      exact hnc i' (by omega) hold
    · push_neg at hvisit
      have heq : parIter a' j n = parIter a j n := by
        refine parIter_congr_avoid a a' c hparO j n ?_
        intro k hk y hy hyc
        subst hyc
        exact hvisit k hk hy
      rw [heq] at hcycle
      exact hwf.acyclic n hn j hj hjle hcycle

/-! ## Extending the arena with a fresh node -/

/-- Parent pointers after `new_node`. -/
theorem parentOf_extend (a : Arena) (nd : ArenaNode) (n : Nat) :
    parentOf (a ++ [nd]) n = if n = a.length then nd.parent else parentOf a n := by
  unfold parentOf
  split <;> rename_i h
  · subst h
    rw [List.get?_concat_length]
    rfl
  · rcases Nat.lt_or_ge n a.length with hlt | hge
    · rw [List.get?_append hlt]
    · have hgt : a.length < n := by omega
      rw [List.get?_eq_none.mpr (by simp; omega), List.get?_eq_none.mpr (by omega)]

/-- Child lists after `new_node`. -/
theorem childrenOf_extend (a : Arena) (nd : ArenaNode) (n : Nat) :
    childrenOf (a ++ [nd]) n = if n = a.length then nd.children else childrenOf a n := by
  unfold childrenOf
  split <;> rename_i h
  · subst h
    rw [List.get?_concat_length]
    rfl
  · rcases Nat.lt_or_ge n a.length with hlt | hge
    · rw [List.get?_append hlt]
    · have hgt : a.length < n := by omega
      rw [List.get?_eq_none.mpr (by simp; omega), List.get?_eq_none.mpr (by omega)]

/-- Walks from old nodes are unchanged by appending a fresh parentless node. -/
theorem parIter_extend (a : Arena)
    (hpl : ∀ n p, parentOf a n = some p → p < a.length) :
    ∀ (j n : Nat), n < a.length →
      parIter (a ++ [ArenaNode.mk none []]) j n = parIter a j n := by
  intro j
  induction j with
  | zero => intro n _; rfl
  | succ j ih =>
    intro n hn
    have hstep : ∀ (b : Arena), parIter b (j + 1) n =
        (match parentOf b n with
         | none => none
         | some q => parIter b j q : Option Nat) := fun _ => rfl
    rw [hstep, hstep, parentOf_extend, if_neg (by omega)]
    rcases hq : parentOf a n with _ | q
    · rfl
    · exact ih q (hpl n q hq)

/-- Appending a fresh parentless, childless node preserves the invariant. -/
theorem extend_wf (a : Arena) (hwf : ArenaWF a) :
    ArenaWF (a ++ [ArenaNode.mk none []]) := by
  refine ⟨?_, ?_, ?_, ?_, ?_⟩
  · intro n p hp
    rw [parentOf_extend] at hp
    split at hp
    · exact Option.noConfusion hp
    · have := hwf.parent_lt n p hp
      simp
      omega
  · intro p c hc
    rw [childrenOf_extend] at hc
    split at hc
    · exact absurd hc (by simp)
    · have := hwf.child_lt p c hc
      simp
      omega
  · intro c p
    rw [parentOf_extend, childrenOf_extend]
    split <;> rename_i hc
    · constructor
      · intro h
        exact Option.noConfusion h
      · intro h
        split at h
        · exact absurd h (by simp)
        · subst hc
          have := hwf.child_lt p a.length h
          omega
    · split <;> rename_i hp
      · constructor
        · intro h
          subst hp
          have := hwf.parent_lt c a.length h
          omega
        · intro h
          exact absurd h (by simp)
      · exact hwf.pc c p
  · intro p
    rw [childrenOf_extend]
    split
    · exact List.Pairwise.nil
    · exact hwf.childNodup p
  · intro n hn j hj hjle
    rw [List.length_append, List.length_cons, List.length_nil] at hn hjle
    by_cases hnlen : n = a.length
    · intro hcy
      rw [show j = (j - 1) + 1 from by omega] at hcy
      have hstep : parIter (a ++ [ArenaNode.mk none []]) (j - 1 + 1) n =
          (match parentOf (a ++ [ArenaNode.mk none []]) n with
           | none => none
           | some q => parIter (a ++ [ArenaNode.mk none []]) (j - 1) q : Option Nat) :=
        rfl
      rw [hstep, parentOf_extend, if_pos hnlen] at hcy
      simp at hcy
    · have hn' : n < a.length := by omega
      rw [parIter_extend a hwf.parent_lt j n hn']
      exact acyclic_unbounded a hwf.parent_lt hwf.acyclic n hn' j hj

/-! ## Tree well-formedness -/

/-- The tree invariant: the arena is well-formed, the uuid → node map has
distinct keys and distinct in-range values (it is injective), every arena
node is mapped (the map and arena have equal sizes), and the two permanent
roots are at slots 0 (trash) and 1 (main). -/
structure TreeWF (t : Tree) : Prop where
  arena : ArenaWF t.arena
  keysNodup : (t.node.map Prod.fst).Nodup
  valsNodup : (t.node.map Prod.snd).Nodup
  vals_lt : ∀ kv ∈ t.node, kv.2 < t.arena.length
  count : t.node.length = t.arena.length
  trashRoot : lookupNode t "trash" = some 0
  mainRoot : lookupNode t "" = some 1

/-- `lookupNode` misses exactly when the key is absent. -/
theorem lookupNode_none_iff (t : Tree) (u : String) :
    lookupNode t u = none ↔ ∀ kv ∈ t.node, kv.1 ≠ u := by
  unfold lookupNode
  rw [Option.map_eq_none', List.find?_eq_none]
  constructor
  · intro h kv hkv
    have := h kv hkv
    simpa using this
  · intro h kv hkv
    simpa using h kv hkv

/-- A successful lookup returns an entry of the map. -/
theorem lookupNode_some_mem (t : Tree) (u : String) (n : Nat)
    (h : lookupNode t u = some n) : (u, n) ∈ t.node := by
  unfold lookupNode at h
  rcases Option.map_eq_some'.mp h with ⟨kv, hfind, hsnd⟩
  have hmem := List.mem_of_find?_eq_some hfind
  have hpred := List.find?_some hfind
  have hkey : kv.1 = u := by simpa using hpred
  have : kv = (u, n) := by
    rcases kv with ⟨k, v⟩
    simp at hkey hsnd
    rw [hkey, hsnd]
  rwa [this] at hmem

/-- A mapped node is in arena range. -/
theorem lookupNode_lt (t : Tree) (u : String) (n : Nat) (hwf : TreeWF t)
    (h : lookupNode t u = some n) : n < t.arena.length :=
  hwf.vals_lt (u, n) (lookupNode_some_mem t u n h)

/-- Lookup in a map with a fresh first entry. -/
theorem lookup_cons (k : String) (v : Nat) (rest : List (String × Nat)) (w : String) :
    (((k, v) :: rest).find? (fun kv => kv.1 == w)).map Prod.snd =
      if k = w then some v
      else (rest.find? (fun kv => kv.1 == w)).map Prod.snd := by
  by_cases h : k = w
  · subst h
    simp [List.find?]
  · have hb : (k == w) = false := by simpa using h
    simp [List.find?, hb, h]

/-- `Tree::new` is well-formed. -/
theorem treeWF_new : TreeWF Tree.new := by
  refine ⟨arenaWFB_sound _ (by decide), ?_, ?_, ?_, ?_, ?_, ?_⟩ <;> decide

/-- Registering a fresh node for an unmapped uuid preserves the invariant. -/
theorem register_fresh_wf (t : Tree) (u : String) (hwf : TreeWF t)
    (hu : lookupNode t u = none) :
    TreeWF { t with
      arena := t.arena ++ [ArenaNode.mk none []]
      node := (u, t.arena.length) :: t.node } := by
  have hkeys := (lookupNode_none_iff t u).mp hu
  have hune : u ≠ "trash" := by
    intro h
    rw [h] at hu
    rw [hwf.trashRoot] at hu
    exact Option.noConfusion hu
  have hune2 : u ≠ "" := by
    intro h
    rw [h] at hu
    rw [hwf.mainRoot] at hu
    exact Option.noConfusion hu
  refine ⟨extend_wf t.arena hwf.arena, ?_, ?_, ?_, ?_, ?_, ?_⟩
  · refine List.pairwise_cons.mpr ⟨?_, hwf.keysNodup⟩
    intro k hk
    rcases List.mem_map.mp hk with ⟨kv, hkv, rfl⟩
    exact fun h => hkeys kv hkv h.symm
  · refine List.pairwise_cons.mpr ⟨?_, hwf.valsNodup⟩
    intro v hv
    rcases List.mem_map.mp hv with ⟨kv, hkv, rfl⟩
    have := hwf.vals_lt kv hkv
    omega
  · intro kv hkv
    rcases List.mem_cons.mp hkv with rfl | h
    · simp
    · have := hwf.vals_lt kv h
      simp
      omega
  · show ((u, t.arena.length) :: t.node).length = (t.arena ++ [ArenaNode.mk none []]).length
    rw [List.length_cons, List.length_append, hwf.count]
    rfl
  · show (((u, t.arena.length) :: t.node).find? (fun kv => kv.1 == "trash")).map Prod.snd
      = some 0
    rw [lookup_cons, if_neg hune]
    exact hwf.trashRoot
  · show (((u, t.arena.length) :: t.node).find? (fun kv => kv.1 == "")).map Prod.snd
      = some 1
    rw [lookup_cons, if_neg hune2]
    exact hwf.mainRoot

/-- The files-update step of `add_file` leaves arena and node map unchanged. -/
theorem files_match_arena (t1 : Tree) (pn : Nat) (fu fn : String) :
    (match lookupFiles t1 pn with
     | some list => { t1 with files := (pn, list ++ [(fu, fn)]) :: t1.files }
     | none => { t1 with files := (pn, [(fu, fn)]) :: t1.files } : Tree).arena =
      t1.arena := by
  rcases lookupFiles t1 pn with _ | l <;> rfl

/-- The files-update step of `add_file` keeps the invariant (no field of the
invariant mentions the file lists). -/
theorem files_match_wf (t1 : Tree) (pn : Nat) (fu fn : String) (h : TreeWF t1) :
    TreeWF (match lookupFiles t1 pn with
     | some list => { t1 with files := (pn, list ++ [(fu, fn)]) :: t1.files }
     | none => { t1 with files := (pn, [(fu, fn)]) :: t1.files } : Tree) := by
  rcases lookupFiles t1 pn with _ | l <;>
    exact ⟨h.arena, h.keysNodup, h.valsNodup, h.vals_lt, h.count,
      h.trashRoot, h.mainRoot⟩

/-- `Tree::add_file` preserves the invariant and changes no arena link of an
existing node: it only touches file lists and possibly registers a fresh
parentless node. -/
theorem add_file_wf (t : Tree) (u p nm : String) (hwf : TreeWF t) :
    TreeWF (t.add_file u p nm) ∧
    (∀ m, m < t.arena.length →
      parentOf (t.add_file u p nm).arena m = parentOf t.arena m) ∧
    (∀ m, m < t.arena.length →
      childrenOf (t.add_file u p nm).arena m = childrenOf t.arena m) := by
  rcases hl : lookupNode t p with _ | n
  · have hstep : t.add_file u p nm =
        (match lookupFiles { t with
            arena := t.arena ++ [ArenaNode.mk none []]
            node := (p, t.arena.length) :: t.node } t.arena.length with
         | some list => { t with
            arena := t.arena ++ [ArenaNode.mk none []]
            node := (p, t.arena.length) :: t.node
            files := (t.arena.length, list ++ [(u, nm)]) :: t.files }
         | none => { t with
            arena := t.arena ++ [ArenaNode.mk none []]
            node := (p, t.arena.length) :: t.node
            files := (t.arena.length, [(u, nm)]) :: t.files } : Tree) := by
      unfold Tree.add_file
      rw [hl]
      rfl
    have hwf1 := register_fresh_wf t p hwf hl
    have harena : (t.add_file u p nm).arena = t.arena ++ [ArenaNode.mk none []] := by
      rw [hstep]
      exact files_match_arena _ t.arena.length u nm
    refine ⟨?_, ?_, ?_⟩
    · rw [hstep]
      exact files_match_wf _ t.arena.length u nm hwf1
    · intro m hm
      rw [harena, parentOf_extend, if_neg (by omega)]
    · intro m hm
      rw [harena, childrenOf_extend, if_neg (by omega)]
  · have hstep : t.add_file u p nm =
        (match lookupFiles t n with
         | some list => { t with files := (n, list ++ [(u, nm)]) :: t.files }
         | none => { t with files := (n, [(u, nm)]) :: t.files } : Tree) := by
      unfold Tree.add_file
      rw [hl]
    have harena : (t.add_file u p nm).arena = t.arena := by
      rw [hstep]
      exact files_match_arena t n u nm
    refine ⟨?_, ?_, ?_⟩
    · rw [hstep]
      exact files_match_wf t n u nm hwf
    · intro m _
      rw [harena]
    · intro m _
      rw [harena]

/-- The append step at the end of `add_folder`, on tree level. -/
theorem append_step_wf (tb : Tree) (pid nid : Nat) (arena' : Arena)
    (hwfb : TreeWF tb) (hpid : pid < tb.arena.length) (hnid : nid < tb.arena.length)
    (hcpar : parentOf tb.arena nid = none)
    (happ : appendNode tb.arena pid nid = some arena') :
    TreeWF { tb with arena := arena' } ∧
    (∀ m q, parentOf tb.arena m = some q → parentOf arena' m = some q) := by
  rcases appendNode_wf tb.arena pid nid arena' hwfb.arena hpid hnid hcpar happ with
    ⟨hwf', hlen, hparC, hparO, _, _⟩
  constructor
  · refine ⟨hwf', hwfb.keysNodup, hwfb.valsNodup, ?_, ?_, hwfb.trashRoot,
      hwfb.mainRoot⟩
    · intro kv hkv
      show kv.2 < arena'.length
      rw [hlen]
      exact hwfb.vals_lt kv hkv
    · show tb.node.length = arena'.length
      rw [hlen]
      exact hwfb.count
  · intro m q hq
    have hmne : m ≠ nid := by
      intro h
      rw [h, hcpar] at hq
      exact Option.noConfusion hq
    rw [hparO m hmne]
    exact hq

/-- `Tree::add_folder`, when it succeeds and the folder's node does not have
a parent yet (each uuid is folder-added at most once), preserves the
invariant, and every already-assigned parent pointer is unchanged — nodes
are never re-parented. -/
theorem add_folder_wf (t : Tree) (u p nm : String) (t' : Tree) (hwf : TreeWF t)
    (hnopar : ∀ k, lookupNode t u = some k → parentOf t.arena k = none)
    (hadd : t.add_folder u p nm = some t') :
    TreeWF t' ∧
    (∀ m q, parentOf t.arena m = some q → parentOf t'.arena m = some q) := by
  rcases hu : lookupNode t u with _ | n
  · -- fresh folder node
    have hlkp : lookupNode { t with
        arena := t.arena ++ [ArenaNode.mk none []]
        node := (u, t.arena.length) :: t.node
        name := (t.arena.length, nm) :: t.name } p =
        (if u = p then some t.arena.length else lookupNode t p) := by
      show (((u, t.arena.length) :: t.node).find? (fun kv => kv.1 == p)).map Prod.snd = _
      rw [lookup_cons]
      rfl
    by_cases hup : u = p
    · -- self-append: the indextree append panics, contradicting success
      exfalso
      have hstep : t.add_folder u p nm =
          (appendNode (t.arena ++ [ArenaNode.mk none []]) t.arena.length t.arena.length).map
            (fun arena => { t with
              arena := arena
              node := (u, t.arena.length) :: t.node
              name := (t.arena.length, nm) :: t.name }) := by
        unfold Tree.add_folder
        rw [hu]
        simp only [newNode]
        rw [hlkp, if_pos hup]
      rw [hstep] at hadd
      have hself : appendNode (t.arena ++ [ArenaNode.mk none []]) t.arena.length
          t.arena.length = none := by
        unfold appendNode
        rw [if_pos ?_]
        show t.arena.length ∈ ancestors (t.arena ++ [ArenaNode.mk none []]) t.arena.length
        exact (mem_chainAux_iff ..).mpr ⟨0, by omega, rfl⟩
      rw [hself] at hadd
      exact Option.noConfusion hadd
    · rcases hp : lookupNode t p with _ | pn
      · -- fresh folder node and fresh parent node
        have hstep : t.add_folder u p nm =
            (appendNode (t.arena ++ [ArenaNode.mk none []] ++ [ArenaNode.mk none []])
              (t.arena.length + 1) t.arena.length).map
              (fun arena => { t with
                arena := arena
                node := (p, t.arena.length + 1) :: (u, t.arena.length) :: t.node
                name := (t.arena.length, nm) :: t.name }) := by
          unfold Tree.add_folder
          rw [hu]
          simp only [newNode]
          rw [hlkp, if_neg hup, hp,
            show (t.arena ++ [ArenaNode.mk none []]).length = t.arena.length + 1 from by
              simp]
        rcases happ : appendNode (t.arena ++ [ArenaNode.mk none []] ++ [ArenaNode.mk none []])
            (t.arena.length + 1) t.arena.length with _ | arena'
        · rw [hstep, happ] at hadd
          exact Option.noConfusion hadd
        · rw [hstep, happ] at hadd
          have ht' : t' = { t with
              arena := arena'
              node := (p, t.arena.length + 1) :: (u, t.arena.length) :: t.node
              name := (t.arena.length, nm) :: t.name } := by
            exact (Option.some.injEq .. ▸ hadd).symm
          -- the base tree before the append
          have hwf1 := register_fresh_wf t u hwf hu
          have hwf1' : TreeWF { t with
              arena := t.arena ++ [ArenaNode.mk none []]
              node := (u, t.arena.length) :: t.node
              name := (t.arena.length, nm) :: t.name } :=
            ⟨hwf1.arena, hwf1.keysNodup, hwf1.valsNodup, hwf1.vals_lt, hwf1.count,
              hwf1.trashRoot, hwf1.mainRoot⟩
          have hp1 : lookupNode { t with
              arena := t.arena ++ [ArenaNode.mk none []]
              node := (u, t.arena.length) :: t.node
              name := (t.arena.length, nm) :: t.name } p = none := by
            rw [hlkp, if_neg hup]
            exact hp
          have hwf2 := register_fresh_wf _ p hwf1' hp1
          have hwf2' : TreeWF { t with
              arena := t.arena ++ [ArenaNode.mk none []] ++ [ArenaNode.mk none []]
              node := (p, t.arena.length + 1) :: (u, t.arena.length) :: t.node
              name := (t.arena.length, nm) :: t.name } := by
            have hlen1 : ({ t with
                arena := t.arena ++ [ArenaNode.mk none []]
                node := (u, t.arena.length) :: t.node
                name := (t.arena.length, nm) :: t.name } : Tree).arena.length =
                t.arena.length + 1 := by simp
            rw [hlen1] at hwf2
            exact ⟨hwf2.arena, hwf2.keysNodup, hwf2.valsNodup, hwf2.vals_lt, hwf2.count,
              hwf2.trashRoot, hwf2.mainRoot⟩
          rcases append_step_wf _ (t.arena.length + 1) t.arena.length arena' hwf2'
              (by simp) (by simp)
              (by show parentOf (t.arena ++ [ArenaNode.mk none []] ++ [ArenaNode.mk none []])
                    t.arena.length = none
                  rw [parentOf_extend, if_neg (by simp), parentOf_extend, if_pos rfl])
              happ with ⟨hwft', hpres⟩
          constructor
          · rw [ht']
            exact ⟨hwft'.arena, hwft'.keysNodup, hwft'.valsNodup, hwft'.vals_lt,
              hwft'.count, hwft'.trashRoot, hwft'.mainRoot⟩
          · intro m q hq
            rw [ht']
            show parentOf arena' m = some q
            refine hpres m q ?_
            show parentOf (t.arena ++ [ArenaNode.mk none []] ++ [ArenaNode.mk none []])
              m = some q
            have hm : m < t.arena.length := lt_of_parentOf_some t.arena m q hq
            rw [parentOf_extend, if_neg (by simp; omega), parentOf_extend,
              if_neg (by omega)]
            exact hq
      · -- fresh folder node, existing parent node
        have hstep : t.add_folder u p nm =
            (appendNode (t.arena ++ [ArenaNode.mk none []]) pn t.arena.length).map
              (fun arena => { t with
                arena := arena
                node := (u, t.arena.length) :: t.node
                name := (t.arena.length, nm) :: t.name }) := by
          unfold Tree.add_folder
          rw [hu]
          simp only [newNode]
          rw [hlkp, if_neg hup, hp]
        rcases happ : appendNode (t.arena ++ [ArenaNode.mk none []]) pn t.arena.length
          with _ | arena'
        · rw [hstep, happ] at hadd
          exact Option.noConfusion hadd
        · rw [hstep, happ] at hadd
          have ht' : t' = { t with
              arena := arena'
              node := (u, t.arena.length) :: t.node
              name := (t.arena.length, nm) :: t.name } :=
            (Option.some.injEq .. ▸ hadd).symm
          have hwf1 := register_fresh_wf t u hwf hu
          have hwf1' : TreeWF { t with
              arena := t.arena ++ [ArenaNode.mk none []]
              node := (u, t.arena.length) :: t.node
              name := (t.arena.length, nm) :: t.name } :=
            ⟨hwf1.arena, hwf1.keysNodup, hwf1.valsNodup, hwf1.vals_lt, hwf1.count,
              hwf1.trashRoot, hwf1.mainRoot⟩
          have hpn : pn < t.arena.length := lookupNode_lt t p pn hwf hp
          rcases append_step_wf _ pn t.arena.length arena' hwf1'
              (by simp; omega) (by simp)
              (by show parentOf (t.arena ++ [ArenaNode.mk none []]) t.arena.length = none
                  rw [parentOf_extend, if_pos rfl])
              happ with ⟨hwft', hpres⟩
          constructor
          · rw [ht']
            exact ⟨hwft'.arena, hwft'.keysNodup, hwft'.valsNodup, hwft'.vals_lt,
              hwft'.count, hwft'.trashRoot, hwft'.mainRoot⟩
          · intro m q hq
            rw [ht']
            show parentOf arena' m = some q
            refine hpres m q ?_
            show parentOf (t.arena ++ [ArenaNode.mk none []]) m = some q
            have hm : m < t.arena.length := lt_of_parentOf_some t.arena m q hq
            rw [parentOf_extend, if_neg (by omega)]
            exact hq
  · -- existing folder node `n`
    have hnpar : parentOf t.arena n = none := hnopar n hu
    have hn : n < t.arena.length := lookupNode_lt t u n hwf hu
    have hlkp : lookupNode { t with name := (n, nm) :: t.name } p = lookupNode t p := rfl
    rcases hp : lookupNode t p with _ | pn
    · -- fresh parent node
      have hstep : t.add_folder u p nm =
          (appendNode (t.arena ++ [ArenaNode.mk none []]) t.arena.length n).map
            (fun arena => { t with
              arena := arena
              node := (p, t.arena.length) :: t.node
              name := (n, nm) :: t.name }) := by
        unfold Tree.add_folder
        rw [hu]
        simp only [newNode]
        rw [hlkp, hp]
      rcases happ : appendNode (t.arena ++ [ArenaNode.mk none []]) t.arena.length n
        with _ | arena'
      · rw [hstep, happ] at hadd
        exact Option.noConfusion hadd
      · rw [hstep, happ] at hadd
        have ht' : t' = { t with
            arena := arena'
            node := (p, t.arena.length) :: t.node
            name := (n, nm) :: t.name } :=
          (Option.some.injEq .. ▸ hadd).symm
        have hwf1 := register_fresh_wf t p hwf hp
        have hwf1' : TreeWF { t with
            arena := t.arena ++ [ArenaNode.mk none []]
            node := (p, t.arena.length) :: t.node
            name := (n, nm) :: t.name } :=
          ⟨hwf1.arena, hwf1.keysNodup, hwf1.valsNodup, hwf1.vals_lt, hwf1.count,
            hwf1.trashRoot, hwf1.mainRoot⟩
        rcases append_step_wf _ t.arena.length n arena' hwf1'
            (by simp) (by simp; omega)
            (by show parentOf (t.arena ++ [ArenaNode.mk none []]) n = none
                rw [parentOf_extend, if_neg (by omega)]
                exact hnpar)
            happ with ⟨hwft', hpres⟩
        constructor
        · rw [ht']
          exact ⟨hwft'.arena, hwft'.keysNodup, hwft'.valsNodup, hwft'.vals_lt,
            hwft'.count, hwft'.trashRoot, hwft'.mainRoot⟩
        · intro m q hq
          rw [ht']
          show parentOf arena' m = some q
          refine hpres m q ?_
          show parentOf (t.arena ++ [ArenaNode.mk none []]) m = some q
          have hm : m < t.arena.length := lt_of_parentOf_some t.arena m q hq
          rw [parentOf_extend, if_neg (by omega)]
          exact hq
    · -- existing parent node
      have hstep : t.add_folder u p nm =
          (appendNode t.arena pn n).map
            (fun arena => { t with
              arena := arena
              name := (n, nm) :: t.name }) := by
        unfold Tree.add_folder
        rw [hu]
        simp only [newNode]
        rw [hlkp, hp]
      rcases happ : appendNode t.arena pn n with _ | arena'
      · rw [hstep, happ] at hadd
        exact Option.noConfusion hadd
      · rw [hstep, happ] at hadd
        have ht' : t' = { t with
            arena := arena'
            name := (n, nm) :: t.name } :=
          (Option.some.injEq .. ▸ hadd).symm
        have hwf1' : TreeWF { t with name := (n, nm) :: t.name } :=
          ⟨hwf.arena, hwf.keysNodup, hwf.valsNodup, hwf.vals_lt, hwf.count,
            hwf.trashRoot, hwf.mainRoot⟩
        have hpn : pn < t.arena.length := lookupNode_lt t p pn hwf hp
        rcases append_step_wf _ pn n arena' hwf1' hpn hn hnpar happ with ⟨hwft', hpres⟩
        constructor
        · rw [ht']
          exact ⟨hwft'.arena, hwft'.keysNodup, hwft'.valsNodup, hwft'.vals_lt,
            hwft'.count, hwft'.trashRoot, hwft'.mainRoot⟩
        · intro m q hq
          rw [ht']
          exact hpres m q hq

/-! ## Helper lemmas for `without_overlapping` -/

/-- Elements produced by the keep-fold come from the accumulator or the
input. -/
theorem without_overlapping_fold_mem (paths : List String) (acc : List String)
    (p : String)
    (hp : p ∈ paths.foldl
      (fun result path =>
        if result.any (fun pre => startsWith path pre) then result
        else result ++ [path]) acc) :
    p ∈ acc ∨ p ∈ paths := by
  induction paths generalizing acc with
  | nil => exact Or.inl hp
  | cons q rest ih =>
    simp only [List.foldl_cons] at hp
    rcases ih _ hp with h | h
    · by_cases hq : acc.any (fun pre => startsWith q pre)
      · rw [if_pos hq] at h
        exact Or.inl h
      · rw [if_neg hq] at h
        rcases List.mem_append.mp h with h | h
        · exact Or.inl h
        · simp at h
          subst h
          exact Or.inr (List.mem_cons_self ..)
    · exact Or.inr (List.mem_cons_of_mem _ h)

/-- The keep-fold preserves the "no kept path is a string prefix of a
later-kept path" invariant. -/
theorem without_overlapping_fold_pairwise (paths : List String) (acc : List String)
    (hacc : acc.Pairwise (fun a b => startsWith b a = false)) :
    (paths.foldl
      (fun result path =>
        if result.any (fun pre => startsWith path pre) then result
        else result ++ [path]) acc).Pairwise (fun a b => startsWith b a = false) := by
  induction paths generalizing acc with
  | nil => exact hacc
  | cons q rest ih =>
    simp only [List.foldl_cons]
    by_cases hq : acc.any (fun pre => startsWith q pre)
    · rw [if_pos hq]
      exact ih _ hacc
    · rw [if_neg hq]
      refine ih _ (List.pairwise_append.mpr ⟨hacc, List.pairwise_singleton .., ?_⟩)
      intro a ha b hb
      simp only [List.mem_singleton] at hb
      subst hb
      simp only [List.any_eq_true, not_exists, not_and] at hq
      simpa using hq a ha

/-- `insertByKey` inserts, up to permutation. -/
theorem insertByKey_perm {α : Type} (key : α → Nat) (x : α) :
    ∀ ys : List α, List.Perm (insertByKey key x ys) (x :: ys) := by
  intro ys
  induction ys with
  | nil => rfl
  | cons y ys ihy =>
    unfold insertByKey
    split
    · rfl
    · exact (ihy.cons y).trans (List.Perm.swap x y ys)

/-- `sortByKey` permutes its input. -/
theorem sortByKey_perm {α : Type} (key : α → Nat) :
    ∀ xs : List α, List.Perm (sortByKey key xs) xs := by
  intro xs
  induction xs with
  | nil => rfl
  | cons x xs ih => exact (insertByKey_perm key x _).trans (ih.cons x)

/-- `insertByKey` keeps a list sorted-with-residue: `R a b` is "key ordered,
and when the keys are equal the stability residue `Q a b` holds".  Inserting
an element that carries the residue against every list element preserves
`Pairwise R`.  This is the stability argument for the stable sort. -/
theorem insertByKey_pairwise {α : Type} (key : α → Nat) (Q : α → α → Prop) (x : α) :
    ∀ l : List α,
      l.Pairwise (fun a b => key a ≤ key b ∧ (key a = key b → Q a b)) →
      (∀ y ∈ l, key x = key y → Q x y) →
      (insertByKey key x l).Pairwise
        (fun a b => key a ≤ key b ∧ (key a = key b → Q a b)) := by
  intro l
  induction l with
  | nil =>
    intro _ _
    exact List.pairwise_singleton ..
  | cons y ys ih =>
    intro hl hx
    rcases List.pairwise_cons.mp hl with ⟨hy, hys⟩
    unfold insertByKey
    split <;> rename_i hkey
    · refine List.pairwise_cons.mpr ⟨?_, hl⟩
      intro z hz
      rcases List.mem_cons.mp hz with rfl | hz
      · exact ⟨hkey, hx z (List.mem_cons_self ..)⟩
      · exact ⟨Nat.le_trans hkey (hy z hz).1,
          fun he => hx z (List.mem_cons_of_mem _ hz) he⟩
    · refine List.pairwise_cons.mpr ⟨?_, ih hys (fun z hz => hx z (List.mem_cons_of_mem _ hz))⟩
      intro z hz
      have hz' := (insertByKey_perm key x ys).mem_iff.mp hz
      rcases List.mem_cons.mp hz' with rfl | hz'
      · exact ⟨Nat.le_of_not_le hkey, fun he => absurd he.ge (by omega)⟩
      · exact hy z hz'

/-- `sortByKey` sorts, and for equal keys it preserves any relation `Q` that
held pairwise in the input (stability). -/
theorem sortByKey_pairwise {α : Type} (key : α → Nat) (Q : α → α → Prop) :
    ∀ xs : List α,
      xs.Pairwise (fun a b => key a = key b → Q a b) →
      (sortByKey key xs).Pairwise
        (fun a b => key a ≤ key b ∧ (key a = key b → Q a b)) := by
  intro xs
  induction xs with
  | nil => intro _; exact List.Pairwise.nil
  | cons x xs ih =>
    intro hxs
    rcases List.pairwise_cons.mp hxs with ⟨hx, hxs'⟩
    exact insertByKey_pairwise key Q x (sortByKey key xs) (ih hxs')
      (fun y hy => hx y ((sortByKey_perm key xs).mem_iff.mp hy))

/-- Everything `dedupByIpAux` returns was in the input. -/
theorem dedupByIpAux_subset :
    ∀ (l : List Entry) (a : Entry), ∀ e ∈ dedupByIpAux a l, e ∈ l := by
  intro l
  induction l with
  | nil => intro a e he; exact absurd he (by simp [dedupByIpAux])
  | cons b rest ih =>
    intro a e he
    rw [dedupByIpAux] at he
    split at he
    · exact List.mem_cons_of_mem _ (ih a e he)
    · rcases List.mem_cons.mp he with rfl | he'
      · exact List.mem_cons_self ..
      · exact List.mem_cons_of_mem _ (ih b e he')

/-- Everything `dedupByIp` returns was in the input. -/
theorem dedupByIp_subset : ∀ (l : List Entry), ∀ e ∈ dedupByIp l, e ∈ l := by
  intro l
  cases l with
  | nil => intro e he; exact absurd he (by simp [dedupByIp])
  | cons a rest =>
    intro e he
    rw [dedupByIp] at he
    rcases List.mem_cons.mp he with rfl | he'
    · exact List.mem_cons_self ..
    · exact List.mem_cons_of_mem _ (dedupByIpAux_subset rest a e he')

/-- After a last retained entry `a`, on an ip-sorted tail `dedupByIpAux`
produces strictly increasing ips, all above `a.ip`. -/
theorem dedupByIpAux_strict :
    ∀ (l : List Entry) (a : Entry),
      (a :: l).Pairwise (fun x y => x.ip ≤ y.ip) →
      (dedupByIpAux a l).Pairwise (fun x y => x.ip < y.ip) ∧
        ∀ e ∈ dedupByIpAux a l, a.ip < e.ip := by
  intro l
  induction l with
  | nil =>
    intro a _
    exact ⟨List.Pairwise.nil, by simp [dedupByIpAux]⟩
  | cons b rest ih =>
    intro a hl
    rcases List.pairwise_cons.mp hl with ⟨ha, hbl⟩
    rw [dedupByIpAux]
    split <;> rename_i hip
    · have hsub : (a :: rest).Pairwise (fun x y => x.ip ≤ y.ip) :=
        hl.sublist (List.Sublist.cons₂ a (List.sublist_cons_self b rest))
      exact ih a hsub
    · have hab : a.ip < b.ip := by
        have h1 := ha b (List.mem_cons_self ..)
        have h2 : ¬ a.ip = b.ip := by simpa using hip
        omega
      rcases ih b hbl with ⟨hpw, hbound⟩
      refine ⟨List.pairwise_cons.mpr ⟨hbound, hpw⟩, ?_⟩
      intro e he
      rcases List.mem_cons.mp he with rfl | he'
      · exact hab
      · exact Nat.lt_trans hab (hbound e he')

/-- On a list sorted by ip, `dedupByIp` produces strictly increasing ips. -/
theorem dedupByIp_strict :
    ∀ l : List Entry, l.Pairwise (fun a b => a.ip ≤ b.ip) →
      (dedupByIp l).Pairwise (fun a b => a.ip < b.ip) := by
  intro l hl
  cases l with
  | nil => exact List.Pairwise.nil
  | cons a rest =>
    rw [dedupByIp]
    rcases dedupByIpAux_strict rest a hl with ⟨hpw, hbound⟩
    exact List.pairwise_cons.mpr ⟨hbound, hpw⟩

/-- On an ip-sorted list in which equal-ip entries appear newest-first, every
input entry has a representative in the dedup with the same ip and a
timestamp at least as new. -/
theorem dedupByIpAux_covers :
    ∀ (l : List Entry) (a : Entry),
      (a :: l).Pairwise (fun x y => x.ip ≤ y.ip ∧
        (x.ip = y.ip → y.last_updated ≤ x.last_updated)) →
      ∀ e ∈ a :: l, ∃ d ∈ a :: dedupByIpAux a l,
        d.ip = e.ip ∧ e.last_updated ≤ d.last_updated := by
  intro l
  induction l with
  | nil =>
    intro a _ e he
    rcases List.mem_singleton.mp he with rfl
    exact ⟨e, List.mem_cons_self .., rfl, Nat.le_refl _⟩
  | cons b rest ih =>
    intro a hl e he
    rcases List.pairwise_cons.mp hl with ⟨ha, hbl⟩
    rw [dedupByIpAux]
    split <;> rename_i hip
    · have hipeq : a.ip = b.ip := by simpa using hip
      have hba : b.last_updated ≤ a.last_updated :=
        (ha b (List.mem_cons_self ..)).2 hipeq
      have hsub : (a :: rest).Pairwise (fun x y => x.ip ≤ y.ip ∧
          (x.ip = y.ip → y.last_updated ≤ x.last_updated)) :=
        hl.sublist (List.Sublist.cons₂ a (List.sublist_cons_self b rest))
      rcases List.mem_cons.mp he with rfl | he'
      · exact ih _ hsub _ (List.mem_cons_self ..)
      · rcases List.mem_cons.mp he' with rfl | he''
        · exact ⟨a, List.mem_cons_self .., hipeq.symm ▸ rfl, hba⟩
        · exact ih _ hsub _ (List.mem_cons_of_mem _ he'')
    · rcases List.mem_cons.mp he with rfl | he'
      · exact ⟨e, List.mem_cons_self .., rfl, Nat.le_refl _⟩
      · rcases ih b hbl e he' with ⟨d, hd, hdip, hdt⟩
        exact ⟨d, List.mem_cons_of_mem _ hd, hdip, hdt⟩

/-- `dedupByIp` covers the input: same-ip representative, newest stamp. -/
theorem dedupByIp_covers :
    ∀ l : List Entry,
      l.Pairwise (fun a b => a.ip ≤ b.ip ∧
        (a.ip = b.ip → b.last_updated ≤ a.last_updated)) →
      ∀ e ∈ l, ∃ d ∈ dedupByIp l, d.ip = e.ip ∧ e.last_updated ≤ d.last_updated := by
  intro l hl e he
  cases l with
  | nil => exact absurd he (by simp)
  | cons a rest =>
    rw [dedupByIp]
    exact dedupByIpAux_covers rest a hl e he

/-- With enough fuel, the purge loop is the in-order filter that drops the
entries with `purgeExpired`. -/
theorem purgeLoopF_eq_filter :
    ∀ (fuel : Nat) (l : List Entry) (now i : Nat), l.length - i < fuel →
      purgeLoopF fuel l now i =
        l.take i ++ (l.drop i).filter (fun e => !purgeExpired now e) := by
  intro fuel
  induction fuel with
  | zero => intro l now i h; exact absurd h (Nat.not_lt_zero _)
  | succ fuel ih =>
    intro l now i hfuel
    rw [purgeLoopF]
    split <;> rename_i heq
    · rw [heq, List.filter_nil, List.append_nil,
        List.take_of_length_le (List.drop_eq_nil_iff.mp heq)]
    · rename_i e rest'
      have hi : i < l.length := by
        by_contra hge
        rw [List.drop_eq_nil_of_le (Nat.le_of_not_lt hge)] at heq
        exact absurd heq (by simp)
      have hdrop : l.drop (i + 1) = rest' := by
        rw [← List.tail_drop, heq, List.tail_cons]
      split <;> rename_i he
      · have hA : (l.take i).length = i := by
          rw [List.length_take]; omega
        have hlen : (l.take i ++ l.drop (i + 1)).length - i < fuel := by
          rw [List.length_append, List.length_take, List.length_drop]
          omega
        rw [ih _ now i hlen, List.take_left' hA, List.drop_left' hA, heq,
          List.filter_cons, hdrop]
        simp [he]
      · have hget : l[i]? = some e := by
          have := List.getElem?_drop l i 0
          rw [heq] at this
          simpa using this.symm
        have hlen : l.length - (i + 1) < fuel := by omega
        rw [ih l now (i + 1) hlen, List.take_succ, hget, heq,
          List.filter_cons, hdrop]
        simp [he]

/-- The purge loop of `Cached::update` is the in-order filter that drops the
entries with `purgeExpired`. -/
theorem purgeLoop_eq_filter :
    ∀ (l : List Entry) (now i : Nat),
      purgeLoop l now i = l.take i ++ (l.drop i).filter (fun e => !purgeExpired now e) := by
  intro l now i
  unfold purgeLoop
  by_cases hi : i ≤ l.length
  · exact purgeLoopF_eq_filter _ l now i (by omega)
  · have h0 : l.length + 1 - i = 0 := by omega
    rw [h0]
    show l = _
    rw [List.take_of_length_le (by omega), List.drop_eq_nil_of_le (by omega)]
    simp

/-- The sorted pipeline feeding `dedupByIp` inside `dedup_keep_newest` is
ip-sorted with equal-ip entries newest-first. -/
theorem dedup_pipeline_pairwise (l : List Entry) :
    (sortByKey Entry.ip (sortByKey Entry.last_updated l).reverse).Pairwise
      (fun a b => a.ip ≤ b.ip ∧ (a.ip = b.ip → b.last_updated ≤ a.last_updated)) := by
  have h1 : (sortByKey Entry.last_updated l).Pairwise
      (fun a b => a.last_updated ≤ b.last_updated) := by
    have := sortByKey_pairwise Entry.last_updated (fun _ _ => True) l
      (List.pairwise_of_forall_mem_list (fun a _ b _ => fun _ => trivial))
    exact this.imp (fun h => h.1)
  have h2 : ((sortByKey Entry.last_updated l).reverse).Pairwise
      (fun a b => b.last_updated ≤ a.last_updated) :=
    List.pairwise_reverse.mpr h1
  have h3 : ((sortByKey Entry.last_updated l).reverse).Pairwise
      (fun a b => a.ip = b.ip → b.last_updated ≤ a.last_updated) := by
    refine h2.imp ?_
    intro a b h _
    exact h
  exact sortByKey_pairwise Entry.ip
    (fun a b => b.last_updated ≤ a.last_updated) _ h3

/-- Membership is preserved through the sort/reverse/sort pipeline. -/
theorem dedup_pipeline_mem (l : List Entry) (e : Entry) :
    e ∈ sortByKey Entry.ip (sortByKey Entry.last_updated l).reverse ↔ e ∈ l := by
  rw [(sortByKey_perm Entry.ip _).mem_iff, List.mem_reverse,
    (sortByKey_perm Entry.last_updated _).mem_iff]

/-! ## Claim theorems: C10, C7, C1, C3 -/

/-- C10: `should_lock now start end` is true iff either `start ≤ end` and
`now` lies in the inclusive window `[start, end]`, or `start > end` and `now`
lies in the midnight-wrapping window (`now ≥ start` or `now ≤ end`); both
endpoints inclusive. -/
theorem c10_should_lock_characterization (now start «end» : Nat) :
    should_lock now start «end» = true ↔
      ((start ≤ «end» ∧ start ≤ now ∧ now ≤ «end») ∨
       («end» < start ∧ (start ≤ now ∨ now ≤ «end»))) := by
  unfold should_lock
  split <;> rename_i h <;>
    simp only [Bool.and_eq_true, Bool.or_eq_true, decide_eq_true_eq] <;>
    refine ⟨fun h2 => ?_, fun h2 => ?_⟩ <;> omega

/-- C7: `without_overlapping` sorts by ascending length and keeps a path
exactly when no already-kept path is a string prefix of it; on the two spec
examples it produces exactly the listed outputs, it only returns requested
paths, and no returned path is a string prefix of a later returned one. -/
theorem c7_without_overlapping :
    without_overlapping ["a/aa/aaa", "b/bb", "a/aa/aab", "b/ba"] =
        ["b/bb", "b/ba", "a/aa/aaa", "a/aa/aab"] ∧
    without_overlapping ["a/aa", "b/bb", "a/aa/aab", "b/ba"] =
        ["a/aa", "b/bb", "b/ba"] ∧
    (∀ l : List String, ∀ p ∈ without_overlapping l, p ∈ l) ∧
    (∀ l : List String,
      (without_overlapping l).Pairwise (fun a b => startsWith b a = false)) := by
  refine ⟨by decide, by decide, ?_, ?_⟩
  · intro l p hp
    rcases without_overlapping_fold_mem _ _ _ hp with h | h
    · simp at h
    · exact (sortByKey_perm byteLen l).mem_iff.mp h
  · intro l
    exact without_overlapping_fold_pairwise _ _ (by simp)

/-- Witness for C7 at concrete inputs: the third and fourth conjuncts applied
to the first spec example. -/
theorem c7_without_overlapping_witness :
    "b/bb" ∈ (["a/aa/aaa", "b/bb", "a/aa/aab", "b/ba"] : List String) ∧
    (without_overlapping ["a/aa/aaa", "b/bb", "a/aa/aab", "b/ba"]).Pairwise
      (fun a b => startsWith b a = false) :=
  ⟨c7_without_overlapping.2.2.1 ["a/aa/aaa", "b/bb", "a/aa/aab", "b/ba"] "b/bb"
      (by decide),
   c7_without_overlapping.2.2.2 ["a/aa/aaa", "b/bb", "a/aa/aab", "b/ba"]⟩

/-- C1 (the code, evaluated at the spec's own scenarios): the per-address
retry loop of `sync::block` has no successful exit — `Ok(()) => ()` does not
break the `loop`.  With a stub reporting "no effect" three times and then
succeeding, the loop is still running after consuming the whole trace instead
of returning success; if the tool then reports the route as already existing
(`route: SIOCADDRT: File exists`, the real tool's answer once the route was
added), the loop returns a fatal error.  The timeout half of the policy does
hold: five consecutive "no effect" results exhaust the 5-attempt budget. -/
theorem c1_block_loop_never_succeeds :
    blockLoop [some .noEffect, some .noEffect, some .noEffect, none] 1 =
        .stillRunning ∧
    blockLoop [some .noEffect, some .noEffect, some .noEffect, none,
        some .routeExists] 1 = .fatal .routeExists ∧
    blockLoop (List.replicate 6 (some .noEffect)) 1 = .timedOut ∧
    (∀ stub attempt, blockLoop stub attempt = .timedOut ∨
      (∃ e, blockLoop stub attempt = .fatal e) ∨
      blockLoop stub attempt = .stillRunning) := by
  refine ⟨by decide, by decide, by decide, ?_⟩
  intro stub
  induction stub with
  | nil => intro attempt; exact Or.inr (Or.inr rfl)
  | cons r rest ih =>
    intro attempt
    match r with
    | none => exact ih attempt
    | some .noEffect =>
      unfold blockLoop
      by_cases h : attempt > 4
      · rw [if_pos h]
        exact Or.inl rfl
      · rw [if_neg h]
        exact ih (attempt + 1)
    | some .start | some .run | some .verifying | some .routeExists
    | some .notFound =>
      exact Or.inr (Or.inl ⟨_, rfl⟩)

/-- C3 counterexample: the loop in `sync_routes` does *not* behave as the
claim states.  With one connectivity failure and one failure of another kind
it keeps retrying (instead of stopping), and once the 30 s timeout elapses it
proceeds with the empty address list, discarding the addresses the last round
resolved. -/
theorem c3_sync_loop_counterexample :
    ¬ (∀ trace : List Round, syncLoop trace = specSyncLoop trace) ∧
    syncLoop [⟨[7], [.noConnections, .other], 0⟩] = none ∧
    specSyncLoop [⟨[7], [.noConnections, .other], 0⟩] = some [7] ∧
    syncLoop [⟨[7], [.noConnections], 31000⟩] = some [] ∧
    specSyncLoop [⟨[7], [.noConnections], 31000⟩] = some [7] := by
  refine ⟨?_, by decide, by decide, by decide, by decide⟩
  intro h
  have := h [⟨[7], [.noConnections, .other], 0⟩]
  rw [show syncLoop [⟨[7], [.noConnections, .other], 0⟩] = none from by decide,
    show specSyncLoop [⟨[7], [.noConnections, .other], 0⟩] = some [7] from by
      decide] at this
  exact Option.noConfusion this

/-- C3 amended: the loop retries exactly when at least one failure is a
connectivity failure (regardless of how many failures of other kinds are
present) and the 30 s budget has not elapsed; once no connectivity failure is
present it stops with that round's addresses; on timeout it proceeds with the
*empty* address list (relying on the cache), not with the last round's
partial resolution. -/
theorem c3_sync_loop_amended (r : Round) (rest : List Round) :
    syncLoop (r :: rest) =
      if ∃ e ∈ r.errs, e = ResKind.noConnections then
        if r.elapsedMs > SYNC_TIMEOUT_MS then some [] else syncLoop rest
      else some r.resolved := by
  show (if r.errs.countP (· == ResKind.noConnections) == 0 then some r.resolved
      else if r.elapsedMs > SYNC_TIMEOUT_MS then some [] else syncLoop rest) = _
  by_cases h : ∃ e ∈ r.errs, e = ResKind.noConnections
  · rw [if_pos h]
    have : ¬ (r.errs.countP (· == ResKind.noConnections) == 0) = true := by
      simp only [beq_iff_eq, List.countP_eq_zero]
      push_neg
      rcases h with ⟨e, he, rfl⟩
      exact ⟨_, he, by simp⟩
    rw [if_neg this]
  · rw [if_neg h]
    have : (r.errs.countP (· == ResKind.noConnections) == 0) = true := by
      simp only [beq_iff_eq, List.countP_eq_zero]
      intro e he
      exact fun hc => h ⟨e, he, hc⟩
    rw [if_pos this]

/-- C8: over every cache state and new-address list, `update`'s merge enters
each new address with timestamp `now`, and `dedup_keep_newest` deduplicates
by ip keeping the newest stamp: the result has pairwise-distinct ips, is a
sub-collection of the merged entries, and every merged entry — in particular
the older of two same-ip entries — is represented by a same-ip survivor with
a timestamp at least as new; whatever `update` returns is drawn from that
deduplicated list. -/
theorem c8_update_dedups_by_ip_keeping_newest (now : Nat) (cache : List Entry)
    (new : List Nat) :
    ((dedup_keep_newest (mergedEntries now cache new)).map Entry.ip).Nodup ∧
    (∀ e ∈ dedup_keep_newest (mergedEntries now cache new),
      e ∈ mergedEntries now cache new) ∧
    (∀ e ∈ mergedEntries now cache new,
      ∃ d ∈ dedup_keep_newest (mergedEntries now cache new),
        d.ip = e.ip ∧ e.last_updated ≤ d.last_updated) ∧
    (∀ ip ∈ new, (⟨ip, now⟩ : Entry) ∈ mergedEntries now cache new) ∧
    (∀ r, update now cache new = some r →
      ∀ e ∈ r, e ∈ dedup_keep_newest (mergedEntries now cache new)) := by
  have hR := dedup_pipeline_pairwise (mergedEntries now cache new)
  have hshow : dedup_keep_newest (mergedEntries now cache new) =
      dedupByIp (sortByKey Entry.ip
        (sortByKey Entry.last_updated (mergedEntries now cache new)).reverse) := rfl
  refine ⟨?_, ?_, ?_, ?_, ?_⟩
  · have hstrict := dedupByIp_strict _ (hR.imp (fun h => h.1))
    rw [hshow]
    exact List.pairwise_map.mpr (hstrict.imp (fun h => Nat.ne_of_lt h))
  · intro e he
    rw [hshow] at he
    exact (dedup_pipeline_mem _ e).mp (dedupByIp_subset _ e he)
  · intro e he
    rw [hshow]
    exact dedupByIp_covers _ hR e ((dedup_pipeline_mem _ e).mpr he)
  · intro ip hip
    exact List.mem_append_right _ (List.mem_map.mpr ⟨ip, hip, rfl⟩)
  · intro r hr e her
    simp only [update] at hr
    split at hr
    · exact absurd hr (by simp)
    · split at hr
      · cases hr
        exact her
      · cases hr
        rw [purgeLoop_eq_filter] at her
        simp only [List.take_zero, List.drop_zero, List.nil_append] at her
        exact (List.mem_filter.mp her).1

/-- Witness for C8 at a concrete input: cache `[{ip 5, t 3}]`, new `[5]` at
`now = 10` — the old entry is covered by a same-ip survivor stamped at least
`3`, and the fresh entry `{5, 10}` is in the merge. -/
theorem c8_update_dedups_witness :
    (∃ d ∈ dedup_keep_newest (mergedEntries 10 [⟨5, 3⟩] [5]),
      d.ip = 5 ∧ 3 ≤ d.last_updated) ∧
    (⟨5, 10⟩ : Entry) ∈ mergedEntries 10 [⟨5, 3⟩] [5] :=
  ⟨(c8_update_dedups_by_ip_keeping_newest 10 [⟨5, 3⟩] [5]).2.2.1 ⟨5, 3⟩ (by decide),
   (c8_update_dedups_by_ip_keeping_newest 10 [⟨5, 3⟩] [5]).2.2.2.1 5 (by decide)⟩

/-- C2 counterexample: with two fresh entries and one entry aged exactly
8 weeks (`EXPIRATION` seconds), the aged entry is expired in the claim's
sense (its age is not `< EXPIRATION`), at least 2 entries remain non-expired
after the merge, yet `update` retains it: the purge drops only entries
strictly older than 8 weeks. -/
theorem c2_update_boundary_counterexample :
    2 ≤ n_recent (EXPIRATION + 100)
      (dedup_keep_newest (mergedEntries (EXPIRATION + 100)
        [⟨1, EXPIRATION + 100⟩, ⟨2, EXPIRATION + 100⟩, ⟨3, 100⟩] [])) ∧
    ¬ ((EXPIRATION + 100) - 100 < EXPIRATION) ∧
    update (EXPIRATION + 100)
        [⟨1, EXPIRATION + 100⟩, ⟨2, EXPIRATION + 100⟩, ⟨3, 100⟩] [] =
      some [⟨1, EXPIRATION + 100⟩, ⟨2, EXPIRATION + 100⟩, ⟨3, 100⟩] := by
  refine ⟨by decide, by decide, by decide⟩

/-- C2 amended: `update` purges the entries whose age is *strictly greater*
than 8 weeks (an entry aged exactly 8 weeks counts as non-fresh for the
2-entry floor but is not purged), and purges only when at least 2 entries
remain non-expired (age < 8 weeks) after the merge; when fewer than 2 are
non-expired the merged cache is returned untouched, retaining every entry,
expired ones included. -/
theorem c2_update_purge_policy (now : Nat) (cache : List Entry) (new : List Nat) :
    (n_recent now (dedup_keep_newest (mergedEntries now cache new)) < 2 →
      update now cache new =
        if (dedup_keep_newest (mergedEntries now cache new)).isEmpty then none
        else some (dedup_keep_newest (mergedEntries now cache new))) ∧
    (2 ≤ n_recent now (dedup_keep_newest (mergedEntries now cache new)) →
      update now cache new =
        some ((dedup_keep_newest (mergedEntries now cache new)).filter
          (fun e => !purgeExpired now e))) ∧
    (∀ e : Entry, purgeExpired now e = true ↔
      e.last_updated ≤ now ∧ EXPIRATION < now - e.last_updated) := by
  refine ⟨?_, ?_, ?_⟩
  · intro hlt
    simp only [update]
    by_cases hempty : (dedup_keep_newest (mergedEntries now cache new)).isEmpty = true
    · rw [if_pos hempty, if_pos hempty]
    · rw [if_neg hempty, if_neg hempty, if_pos hlt]
  · intro hge
    simp only [update]
    have hne : ¬ (dedup_keep_newest (mergedEntries now cache new)).isEmpty = true := by
      intro hempty
      have hnil : dedup_keep_newest (mergedEntries now cache new) = [] :=
        List.isEmpty_iff.mp hempty
      rw [hnil] at hge
      simp [n_recent] at hge
    rw [if_neg hne, if_neg (by omega), purgeLoop_eq_filter]
    simp
  · intro e
    simp [purgeExpired]

/-- Witness for C2 amended: at the concrete boundary input the purge branch
is taken and the filter keeps the exactly-8-weeks-old entry. -/
theorem c2_update_purge_policy_witness :
    update (EXPIRATION + 100)
        [⟨1, EXPIRATION + 100⟩, ⟨2, EXPIRATION + 100⟩, ⟨3, 100⟩] [] =
      some ((dedup_keep_newest (mergedEntries (EXPIRATION + 100)
        [⟨1, EXPIRATION + 100⟩, ⟨2, EXPIRATION + 100⟩, ⟨3, 100⟩] [])).filter
          (fun e => !purgeExpired (EXPIRATION + 100) e)) :=
  (c2_update_purge_policy (EXPIRATION + 100)
    [⟨1, EXPIRATION + 100⟩, ⟨2, EXPIRATION + 100⟩, ⟨3, 100⟩] []).2.1 (by decide)

/-! ## uuid-level observations of a tree and their record-level values

The isomorphism class of a built tree is its uuid-level structure: which
uuids have nodes, each uuid's parent uuid, display name and file list.  For
trees built from records with distinct ids these observations are computed
directly from the record list, which makes insertion-order independence a
statement about `find?`/`filterMap` over the records. -/

/-- Reverse lookup: the uuid mapped to arena slot `n`. -/
def uuidOfNode (t : Tree) (n : Nat) : Option String :=
  (t.node.find? (fun kv => kv.2 == n)).map Prod.fst

/-- The uuid of the parent folder of `u`'s node, when both exist. -/
def parentUuid (t : Tree) (u : String) : Option String :=
  (lookupNode t u).bind (fun n => (parentOf t.arena n).bind (uuidOfNode t))

/-- The display name attached to `u`'s node. -/
def nameOfUuid (t : Tree) (u : String) : Option String :=
  (lookupNode t u).bind (lookupName t)

/-- The file list attached to `u`'s node. -/
def filesOfUuid (t : Tree) (u : String) : List (String × String) :=
  ((lookupNode t u).bind (lookupFiles t)).getD []

/-- Whether `u` has a node. -/
def hasNode (t : Tree) (u : String) : Bool :=
  (lookupNode t u).isSome

/-- The folder record for uuid `u`, if any. -/
def folderRec (items : List Item) (u : String) : Option Item :=
  items.find? (fun it => it.isFolder && it.uuid == u)

/-- Whether processing `it` creates-or-reuses a node for `u`: a folder
record for `u` itself, or any record naming `u` as its parent. -/
def touchesUuid (it : Item) (u : String) : Bool :=
  (it.isFolder && it.uuid == u) || it.parent == u

/-- Record-level value of `hasNode`: the roots plus every touched uuid. -/
def keysSpec (items : List Item) (u : String) : Bool :=
  u == "" || u == "trash" || items.any (fun it => touchesUuid it u)

/-- Record-level value of `parentUuid`. -/
def parentSpec (items : List Item) (u : String) : Option String :=
  (folderRec items u).map Item.parent

/-- Record-level value of `nameOfUuid`. -/
def nameSpec (items : List Item) (u : String) : Option String :=
  match folderRec items u with
  | some it => some it.nm
  | none => if u == "trash" then some "trash" else if u == "" then some "" else none

/-- Record-level value of `filesOfUuid`: the file records naming `u` as
parent, in order. -/
def filesSpec (items : List Item) (u : String) : List (String × String) :=
  items.filterMap (fun it => match it with
    | .file fu fp fn => if fp == u then some (fu, fn) else none
    | .folder _ _ _ => none)

/-- `find?` is determined by any member that uniquely satisfies the
predicate. -/
theorem find?_eq_some_of_unique {α : Type} (l : List α) (pred : α → Bool) (x : α)
    (hx : x ∈ l) (hpx : pred x = true)
    (huniq : ∀ y ∈ l, pred y = true → y = x) :
    l.find? pred = some x := by
  induction l with
  | nil => exact absurd hx (by simp)
  | cons a rest ih =>
    rcases ha : pred a with _ | _
    · have hxa : x ≠ a := fun h => by rw [h, ha] at hpx; exact Bool.noConfusion hpx
      have hxr : x ∈ rest := by
        rcases List.mem_cons.mp hx with rfl | h
        · exact absurd rfl hxa
        · exact h
      rw [List.find?_cons_of_neg _ (by simp [ha])]
      exact ih hxr (fun y hy hpy => huniq y (List.mem_cons_of_mem _ hy) hpy)
    · rw [List.find?_cons_of_pos _ ha]
      rw [huniq a (List.mem_cons_self ..) ha]

/-- Under injectivity, reverse lookup inverts the node map. -/
theorem uuidOfNode_of_mem (t : Tree) (w : String) (m : Nat) (hwf : TreeWF t)
    (hmem : (w, m) ∈ t.node) : uuidOfNode t m = some w := by
  unfold uuidOfNode
  have huniq : ∀ y ∈ t.node, (fun kv => kv.2 == m) y = true → y = (w, m) := by
    intro y hy hpy
    have hym : y.2 = m := by simpa using hpy
    exact List.inj_on_of_nodup_map hwf.valsNodup hy hmem (by simpa using hym)
  rw [find?_eq_some_of_unique t.node _ (w, m) hmem (by simp) huniq]
  rfl

/-- Reverse lookup skips a fresh entry whose slot differs. -/
theorem revLookup_cons (k : String) (v : Nat) (rest : List (String × Nat)) (m : Nat)
    (hne : v ≠ m) :
    (((k, v) :: rest).find? (fun kv => kv.2 == m)).map Prod.fst =
      (rest.find? (fun kv => kv.2 == m)).map Prod.fst := by
  have hb : (v == m) = false := by simpa using hne
  simp [List.find?, hb]

/-- `folderRec` over an appended single record. -/
theorem folderRec_append (items : List Item) (it : Item) (u : String) :
    folderRec (items ++ [it]) u =
      match folderRec items u with
      | some r => some r
      | none => if it.isFolder && it.uuid == u then some it else none := by
  unfold folderRec
  induction items with
  | nil =>
    simp only [List.nil_append, List.find?_nil]
    rcases h : (fun it => it.isFolder && it.uuid == u) it with _ | _ <;>
      simp [List.find?, h]
  | cons a rest ih =>
    rcases h : a.isFolder && (a.uuid == u) with _ | _
    · rw [List.cons_append, List.find?_cons_of_neg _ (by simp [h]),
        List.find?_cons_of_neg _ (by simp [h]), ih]
    · rw [List.cons_append, List.find?_cons_of_pos _ (by simp [h]),
        List.find?_cons_of_pos _ (by simp [h])]

/-- `keysSpec` over an appended single record. -/
theorem keysSpec_append (items : List Item) (it : Item) (u : String) :
    keysSpec (items ++ [it]) u = (keysSpec items u || touchesUuid it u) := by
  unfold keysSpec
  rw [List.any_append]
  cases u == "" <;> cases u == "trash" <;>
    cases h : items.any (fun it => touchesUuid it u) <;>
    cases h2 : touchesUuid it u <;> simp [List.any_cons, h2]

/-- `filesSpec` over an appended single record. -/
theorem filesSpec_append (items : List Item) (it : Item) (u : String) :
    filesSpec (items ++ [it]) u =
      filesSpec items u ++ (match it with
        | .file fu fp fn => if fp == u then [(fu, fn)] else []
        | .folder _ _ _ => []) := by
  unfold filesSpec
  rw [List.filterMap_append]
  rcases it with ⟨fu2, fp2, fn2⟩ | ⟨fu2, fp2, fn2⟩
  · simp [List.filterMap]
  · by_cases h : fp2 == u <;> simp [List.filterMap, h]

/-- Every in-range slot is mapped to some uuid (the node map is onto the
arena). -/
theorem uuidOfNode_total (t : Tree) (m : Nat) (hwf : TreeWF t)
    (hm : m < t.arena.length) : ∃ w, uuidOfNode t m = some w := by
  have hsub : (t.node.map Prod.snd).toFinset ⊆ Finset.range t.arena.length := by
    intro v hv
    rcases List.mem_map.mp (List.mem_toFinset.mp hv) with ⟨kv, hkv, rfl⟩
    exact Finset.mem_range.mpr (hwf.vals_lt kv hkv)
  have hcard : (Finset.range t.arena.length).card ≤
      (t.node.map Prod.snd).toFinset.card := by
    rw [List.toFinset_card_of_nodup hwf.valsNodup, Finset.card_range,
      List.length_map, hwf.count]
  have heq := Finset.eq_of_subset_of_card_le hsub hcard
  have hmem : m ∈ (t.node.map Prod.snd).toFinset := by
    rw [heq]
    exact Finset.mem_range.mpr hm
  rcases List.mem_map.mp (List.mem_toFinset.mp hmem) with ⟨kv, hkv, hsnd⟩
  refine ⟨kv.1, ?_⟩
  have : kv = (kv.1, m) := by
    rcases kv with ⟨k, v⟩
    simp at hsnd
    rw [hsnd]
  rw [this] at hkv
  exact uuidOfNode_of_mem t kv.1 m hwf hkv

/-- Mid-build description: after `Tree::new` processed the records `pre`,
the tree's uuid-level observations are the record-level functions of `pre`,
the tree is well-formed, and name/file maps only mention existing slots. -/
structure Desc (pre : List Item) (t : Tree) : Prop where
  wf : TreeWF t
  names_lt : ∀ kv ∈ t.name, kv.1 < t.arena.length
  files_lt : ∀ kv ∈ t.files, kv.1 < t.arena.length
  keys : ∀ u, hasNode t u = keysSpec pre u
  par : ∀ u, parentUuid t u = parentSpec pre u
  nms : ∀ u, nameOfUuid t u = nameSpec pre u
  fls : ∀ u, filesOfUuid t u = filesSpec pre u

/-- Lookup in the fresh tree. -/
theorem lookupNode_new (u : String) :
    lookupNode Tree.new u =
      if "" = u then some 1 else if "trash" = u then some 0 else none := by
  show (([("", 1), ("trash", 0)] : List (String × Nat)).find?
    (fun kv => kv.1 == u)).map Prod.snd = _
  rw [lookup_cons]
  split
  · rfl
  · rw [lookup_cons]
    split <;> rfl

/-- `Tree::new` is described by the empty record list. -/
theorem desc_new : Desc [] Tree.new := by
  refine ⟨treeWF_new, by decide, by decide, ?_, ?_, ?_, ?_⟩
  · intro u
    unfold hasNode keysSpec
    rw [lookupNode_new]
    by_cases h1 : "" = u
    · subst h1
      decide
    · rw [if_neg h1]
      by_cases h2 : "trash" = u
      · subst h2
        decide
      · rw [if_neg h2]
        have b1 : (u == "") = false := by
          simp
          exact fun h => h1 h.symm
        have b2 : (u == "trash") = false := by
          simp
          exact fun h => h2 h.symm
        simp [b1, b2]
  · intro u
    unfold parentUuid parentSpec folderRec
    rw [lookupNode_new]
    by_cases h1 : "" = u
    · subst h1
      decide
    · rw [if_neg h1]
      by_cases h2 : "trash" = u
      · subst h2
        decide
      · rw [if_neg h2]
        rfl
  · intro u
    unfold nameOfUuid nameSpec folderRec
    rw [lookupNode_new]
    by_cases h1 : "" = u
    · subst h1
      decide
    · rw [if_neg h1]
      by_cases h2 : "trash" = u
      · subst h2
        decide
      · rw [if_neg h2]
        have b1 : (u == "") = false := by
          simp
          exact fun h => h1 h.symm
        have b2 : (u == "trash") = false := by
          simp
          exact fun h => h2 h.symm
        simp [b1, b2, List.find?]
  · intro u
    unfold filesOfUuid filesSpec
    rw [lookupNode_new]
    by_cases h1 : "" = u
    · subst h1
      decide
    · rw [if_neg h1]
      by_cases h2 : "trash" = u
      · subst h2
        decide
      · rw [if_neg h2]
        rfl

/-- The uuid → node map is injective on successful lookups. -/
theorem lookupNode_inj (t : Tree) (hwf : TreeWF t) (u v : String) (n : Nat)
    (hu : lookupNode t u = some n) (hv : lookupNode t v = some n) : u = v := by
  have hmu := lookupNode_some_mem t u n hu
  have hmv := lookupNode_some_mem t v n hv
  have := List.inj_on_of_nodup_map hwf.valsNodup hmu hmv rfl
  exact (Prod.mk.injEq .. ▸ this).1

/-- No file list is attached to an out-of-range slot. -/
theorem lookupFiles_none_of_ge (t : Tree) (m : Nat)
    (hfl : ∀ kv ∈ t.files, kv.1 < t.arena.length) (hm : t.arena.length ≤ m) :
    lookupFiles t m = none := by
  unfold lookupFiles
  rw [List.find?_eq_none.mpr]
  · rfl
  · intro kv hkv
    have := hfl kv hkv
    simp
    omega

/-- No name is attached to an out-of-range slot. -/
theorem lookupName_none_of_ge (t : Tree) (m : Nat)
    (hnl : ∀ kv ∈ t.name, kv.1 < t.arena.length) (hm : t.arena.length ≤ m) :
    lookupName t m = none := by
  unfold lookupName
  rw [List.find?_eq_none.mpr]
  · rfl
  · intro kv hkv
    have := hnl kv hkv
    simp
    omega

/-- Processing a file record extends the description by that record. -/
theorem desc_add_file (pre : List Item) (t : Tree) (fu fp fn : String)
    (hd : Desc pre t) : Desc (pre ++ [.file fu fp fn]) (t.add_file fu fp fn) := by
  have hwf' := (add_file_wf t fu fp fn hd.wf).1
  rcases hl : lookupNode t fp with _ | n
  · -- fresh parent node at slot `t.arena.length`
    have hlf : lookupFiles t t.arena.length = none :=
      lookupFiles_none_of_ge t _ hd.files_lt (Nat.le_refl _)
    have hstep : t.add_file fu fp fn = { t with
        arena := t.arena ++ [ArenaNode.mk none []]
        node := (fp, t.arena.length) :: t.node
        files := (t.arena.length, [(fu, fn)]) :: t.files } := by
      unfold Tree.add_file
      rw [hl]
      simp only [newNode]
      have hlf1 : lookupFiles { t with
          arena := t.arena ++ [ArenaNode.mk none []]
          node := (fp, t.arena.length) :: t.node } t.arena.length = none := hlf
      rw [hlf1]
    rw [hstep] at hwf' ⊢
    have hlkp : ∀ u, lookupNode { t with
        arena := t.arena ++ [ArenaNode.mk none []]
        node := (fp, t.arena.length) :: t.node
        files := (t.arena.length, [(fu, fn)]) :: t.files } u =
        (if fp = u then some t.arena.length else lookupNode t u) := by
      intro u
      show (((fp, t.arena.length) :: t.node).find? (fun kv => kv.1 == u)).map Prod.snd = _
      rw [lookup_cons]
      rfl
    refine ⟨hwf', ?_, ?_, ?_, ?_, ?_, ?_⟩
    · intro kv hkv
      have := hd.names_lt kv hkv
      simp
      omega
    · intro kv hkv
      rcases List.mem_cons.mp hkv with rfl | h
      · simp
      · have := hd.files_lt kv h
        simp
        omega
    · intro u
      unfold hasNode
      rw [hlkp, keysSpec_append, ← hd.keys u]
      unfold hasNode
      by_cases hfpu : fp = u
      · rw [if_pos hfpu]
        have : touchesUuid (Item.file fu fp fn) u = true := by
          simp [touchesUuid, Item.parent, hfpu]
        rw [this]
        simp
      · rw [if_neg hfpu]
        have : touchesUuid (Item.file fu fp fn) u = false := by
          simp [touchesUuid, Item.parent, Item.isFolder]
          exact hfpu
        rw [this]
        simp
    · intro u
      have hps : parentSpec (pre ++ [Item.file fu fp fn]) u = parentSpec pre u := by
        unfold parentSpec
        rw [folderRec_append]
        rcases folderRec pre u with _ | r
        · simp [Item.isFolder]
        · rfl
      rw [hps]
      unfold parentUuid
      rw [hlkp]
      by_cases hfpu : fp = u
      · rw [if_pos hfpu]
        show (parentOf (t.arena ++ [ArenaNode.mk none []]) t.arena.length).bind _ =
          parentSpec pre u
        rw [parentOf_extend, if_pos rfl]
        rw [← hd.par u]
        unfold parentUuid
        rw [← hfpu, hl]
        rfl
      · rw [if_neg hfpu, ← hd.par u]
        unfold parentUuid
        rcases hu : lookupNode t u with _ | nw
        · rfl
        · have hnw : nw < t.arena.length := lookupNode_lt t u nw hd.wf hu
          show (parentOf (t.arena ++ [ArenaNode.mk none []]) nw).bind _ =
            (parentOf t.arena nw).bind _
          rw [parentOf_extend, if_neg (by omega)]
          rcases hq : parentOf t.arena nw with _ | q
          · rfl
          · have hqlt : q < t.arena.length := hd.wf.arena.parent_lt nw q hq
            show (uuidOfNode { t with
              arena := t.arena ++ [ArenaNode.mk none []]
              node := (fp, t.arena.length) :: t.node
              files := (t.arena.length, [(fu, fn)]) :: t.files } q) = uuidOfNode t q
            unfold uuidOfNode
            exact revLookup_cons fp t.arena.length t.node q (by omega)
    · intro u
      have hns : nameSpec (pre ++ [Item.file fu fp fn]) u = nameSpec pre u := by
        unfold nameSpec
        rw [folderRec_append]
        rcases folderRec pre u with _ | r
        · simp [Item.isFolder]
        · rfl
      rw [hns]
      unfold nameOfUuid
      rw [hlkp]
      by_cases hfpu : fp = u
      · rw [if_pos hfpu]
        show lookupName t t.arena.length = nameSpec pre u
        rw [lookupName_none_of_ge t _ hd.names_lt (Nat.le_refl _)]
        rw [← hd.nms u]
        unfold nameOfUuid
        rw [← hfpu, hl]
        rfl
      · rw [if_neg hfpu, ← hd.nms u]
        rfl
    · intro u
      simp only [filesSpec_append]
      unfold filesOfUuid
      rw [hlkp]
      by_cases hfpu : fp = u
      · rw [if_pos hfpu]
        have hfl1 : lookupFiles { t with
            arena := t.arena ++ [ArenaNode.mk none []]
            node := (fp, t.arena.length) :: t.node
            files := (t.arena.length, [(fu, fn)]) :: t.files } t.arena.length =
            some [(fu, fn)] := by
          show ((((t.arena.length, [(fu, fn)])) :: t.files).find?
            (fun kv => kv.1 == t.arena.length)).map Prod.snd = _
          rw [List.find?_cons_of_pos _ (by simp)]
          rfl
        rw [Option.some_bind, hfl1]
        have hempty : filesSpec pre u = [] := by
          rw [← hd.fls u]
          unfold filesOfUuid
          rw [← hfpu, hl]
          rfl
        rw [hempty]
        simp [hfpu]
      · rw [if_neg hfpu]
        have hb : (fp == u) = false := by simpa using hfpu
        rw [hb]
        rcases hu : lookupNode t u with _ | nw
        · rw [← hd.fls u]
          unfold filesOfUuid
          rw [hu]
          simp
        · have hnw : nw < t.arena.length := lookupNode_lt t u nw hd.wf hu
          have hfl2 : lookupFiles { t with
              arena := t.arena ++ [ArenaNode.mk none []]
              node := (fp, t.arena.length) :: t.node
              files := (t.arena.length, [(fu, fn)]) :: t.files } nw =
              lookupFiles t nw := by
            show ((((t.arena.length, [(fu, fn)])) :: t.files).find?
              (fun kv => kv.1 == nw)).map Prod.snd = _
            rw [List.find?_cons_of_neg _ (by simp; omega)]
            rfl
          rw [Option.some_bind, hfl2, ← hd.fls u]
          unfold filesOfUuid
          rw [hu]
          simp
  · -- existing parent node `n`
    have hn : n < t.arena.length := lookupNode_lt t fp n hd.wf hl
    have hstep : t.add_file fu fp fn = { t with
        files := (n, (lookupFiles t n).getD [] ++ [(fu, fn)]) :: t.files } := by
      unfold Tree.add_file
      rw [hl]
      show (match lookupFiles t n with
        | some list => { t with files := (n, list ++ [(fu, fn)]) :: t.files }
        | none => { t with files := (n, [(fu, fn)]) :: t.files }) = _
      rcases lookupFiles t n with _ | list <;> rfl
    rw [hstep] at hwf' ⊢
    refine ⟨hwf', hd.names_lt, ?_, ?_, ?_, ?_, ?_⟩
    · intro kv hkv
      rcases List.mem_cons.mp hkv with rfl | h
      · simpa using hn
      · exact hd.files_lt kv h
    · intro u
      rw [keysSpec_append, ← hd.keys u]
      show hasNode t u = _
      by_cases hfpu : fp = u
      · have : touchesUuid (Item.file fu fp fn) u = true := by
          simp [touchesUuid, Item.parent, hfpu]
        rw [this]
        have : hasNode t u = true := by
          unfold hasNode
          rw [← hfpu, hl]
          rfl
        rw [this]
        simp
      · have : touchesUuid (Item.file fu fp fn) u = false := by
          simp [touchesUuid, Item.parent, Item.isFolder]
          exact hfpu
        rw [this]
        simp
    · intro u
      have hps : parentSpec (pre ++ [Item.file fu fp fn]) u = parentSpec pre u := by
        unfold parentSpec
        rw [folderRec_append]
        rcases folderRec pre u with _ | r
        · simp [Item.isFolder]
        · rfl
      rw [hps, ← hd.par u]
      rfl
    · intro u
      have hns : nameSpec (pre ++ [Item.file fu fp fn]) u = nameSpec pre u := by
        unfold nameSpec
        rw [folderRec_append]
        rcases folderRec pre u with _ | r
        · simp [Item.isFolder]
        · rfl
      rw [hns, ← hd.nms u]
      rfl
    · intro u
      simp only [filesSpec_append]
      unfold filesOfUuid
      have hlnode : lookupNode { t with
          files := (n, (lookupFiles t n).getD [] ++ [(fu, fn)]) :: t.files } u =
          lookupNode t u := rfl
      rw [hlnode]
      by_cases hfpu : fp = u
      · have hb : (fp == u) = true := by simp [hfpu]
        rw [hb]
        have hlu : lookupNode t u = some n := by rw [← hfpu]; exact hl
        have hfl1 : lookupFiles { t with
            files := (n, (lookupFiles t n).getD [] ++ [(fu, fn)]) :: t.files } n =
            some ((lookupFiles t n).getD [] ++ [(fu, fn)]) := by
          show (((n, (lookupFiles t n).getD [] ++ [(fu, fn)]) :: t.files).find?
            (fun kv => kv.1 == n)).map Prod.snd = _
          rw [List.find?_cons_of_pos _ (by simp)]
          rfl
        rw [hlu, Option.some_bind, hfl1]
        have : filesSpec pre u = (lookupFiles t n).getD [] := by
          rw [← hd.fls u]
          unfold filesOfUuid
          rw [hlu]
          rfl
        rw [this]
        rfl
      · have hb : (fp == u) = false := by simpa using hfpu
        rw [hb]
        rcases hu : lookupNode t u with _ | nw
        · rw [← hd.fls u]
          unfold filesOfUuid
          rw [hu]
          simp
        · have hnwn : nw ≠ n := by
            intro h
            exact hfpu (lookupNode_inj t hd.wf fp u n hl (h ▸ hu))
          have hfl2 : lookupFiles { t with
              files := (n, (lookupFiles t n).getD [] ++ [(fu, fn)]) :: t.files } nw =
              lookupFiles t nw := by
            show (((n, (lookupFiles t n).getD [] ++ [(fu, fn)]) :: t.files).find?
              (fun kv => kv.1 == nw)).map Prod.snd = _
            rw [List.find?_cons_of_neg _ (by simp; exact fun h => hnwn h.symm)]
            rfl
          rw [Option.some_bind, hfl2, ← hd.fls u]
          unfold filesOfUuid
          rw [hu]
          simp

/-- Lookup in the node → name map with a fresh first entry. -/
theorem lookupName_cons (k : Nat) (v : String) (rest : List (Nat × String)) (m : Nat) :
    (((k, v) :: rest).find? (fun kv => kv.1 == m)).map Prod.snd =
      if k = m then some v
      else (rest.find? (fun kv => kv.1 == m)).map Prod.snd := by
  by_cases h : k = m
  · subst h
    simp [List.find?]
  · have hb : (k == m) = false := by simpa using h
    simp [List.find?, hb, h]

/-- A uuid no record touches has no folder record. -/
theorem folderRec_none_of_keysSpec_false (pre : List Item) (w : String)
    (h : keysSpec pre w = false) : folderRec pre w = none := by
  rcases hfr : folderRec pre w with _ | r
  · rfl
  · exfalso
    have hfr2 : pre.find? (fun it => it.isFolder && it.uuid == w) = some r := hfr
    have hmem := List.mem_of_find?_eq_some hfr2
    have hpred := List.find?_some hfr2
    simp at hpred
    have hany : pre.any (fun it => touchesUuid it w) = true :=
      List.any_eq_true.mpr ⟨r, hmem, by simp [touchesUuid, hpred.1, hpred.2]⟩
    unfold keysSpec at h
    rw [hany] at h
    simp at h

/-- A uuid no record touches has no file records either. -/
theorem filesSpec_nil_of_keysSpec_false (pre : List Item) (w : String)
    (h : keysSpec pre w = false) : filesSpec pre w = [] := by
  unfold filesSpec
  rw [List.filterMap_eq_nil]
  intro it hit
  rcases it with ⟨fu2, fp2, fn2⟩ | ⟨fu2, fp2, fn2⟩
  · rfl
  · show (if (fp2 == w) = true then some (fu2, fn2) else none) = none
    by_cases hfp : (fp2 == w) = true
    · exfalso
      have hany : pre.any (fun it => touchesUuid it w) = true :=
        List.any_eq_true.mpr ⟨Item.file fu2 fp2 fn2, hit,
          by simp [touchesUuid, Item.parent, Item.isFolder, hfp]⟩
      unfold keysSpec at h
      rw [hany] at h
      simp at h
    · rw [if_neg hfp]

/-- A uuid no record touches is neither root. -/
theorem not_root_of_keysSpec_false (pre : List Item) (w : String)
    (h : keysSpec pre w = false) : w ≠ "" ∧ w ≠ "trash" := by
  constructor <;> intro hw <;> subst hw <;> unfold keysSpec at h <;> simp at h

/-- `keysSpec` over an appended folder record. -/
theorem keysSpec_folder_append (pre : List Item) (u p nm w : String) :
    keysSpec (pre ++ [Item.folder u p nm]) w =
      (keysSpec pre w || ((u == w) || (p == w))) := by
  rw [keysSpec_append]
  have ht : touchesUuid (Item.folder u p nm) w = ((u == w) || (p == w)) := by
    simp [touchesUuid, Item.isFolder, Item.uuid, Item.parent]
  rw [ht]

/-- `parentSpec` over an appended folder record for a first-seen uuid. -/
theorem parentSpec_folder_append (pre : List Item) (u p nm w : String)
    (hfresh : folderRec pre u = none) :
    parentSpec (pre ++ [Item.folder u p nm]) w =
      if u = w then some p else parentSpec pre w := by
  unfold parentSpec
  rw [folderRec_append]
  by_cases huw : u = w
  · subst huw
    rw [hfresh]
    simp [Item.isFolder, Item.uuid, Item.parent]
  · rw [if_neg huw]
    rcases hfr : folderRec pre w with _ | r
    · simp [Item.isFolder, Item.uuid, huw]
    · rfl

/-- `nameSpec` over an appended folder record for a first-seen uuid. -/
theorem nameSpec_folder_append (pre : List Item) (u p nm w : String)
    (hfresh : folderRec pre u = none) :
    nameSpec (pre ++ [Item.folder u p nm]) w =
      if u = w then some nm else nameSpec pre w := by
  unfold nameSpec
  rw [folderRec_append]
  by_cases huw : u = w
  · subst huw
    rw [hfresh]
    simp [Item.isFolder, Item.uuid, Item.nm]
  · rw [if_neg huw]
    rcases hfr : folderRec pre w with _ | r
    · simp [Item.isFolder, Item.uuid, huw]
    · rfl

/-- `filesSpec` over an appended folder record. -/
theorem filesSpec_folder_append (pre : List Item) (u p nm w : String) :
    filesSpec (pre ++ [Item.folder u p nm]) w = filesSpec pre w := by
  rw [filesSpec_append]
  simp

/-- A uuid without a folder record among the processed records has a
parentless node: this is the `hnopar` precondition of `add_folder_wf`. -/
theorem desc_nopar (pre : List Item) (t : Tree) (u : String) (hd : Desc pre t)
    (hfresh : folderRec pre u = none) :
    ∀ k, lookupNode t u = some k → parentOf t.arena k = none := by
  intro k hk
  rcases hq : parentOf t.arena k with _ | q
  · rfl
  · exfalso
    have hpar := hd.par u
    unfold parentUuid at hpar
    simp only [hk, hq, Option.some_bind] at hpar
    unfold parentSpec at hpar
    rw [hfresh] at hpar
    have hqlt : q < t.arena.length := hd.wf.arena.parent_lt k q hq
    rcases uuidOfNode_total t q hd.wf hqlt with ⟨w, hw⟩
    rw [hw] at hpar
    simp at hpar

/-- Processing a folder record whose uuid has no earlier folder record
extends the description by that record. -/
theorem desc_add_folder (pre : List Item) (t : Tree) (u p nm : String) (t' : Tree)
    (hd : Desc pre t) (hfresh : folderRec pre u = none)
    (hadd : t.add_folder u p nm = some t') :
    Desc (pre ++ [Item.folder u p nm]) t' := by
  have hnopar := desc_nopar pre t u hd hfresh
  have hwf' := (add_folder_wf t u p nm t' hd.wf hnopar hadd).1
  rcases hu : lookupNode t u with _ | n
  · -- fresh folder node
    have hku : keysSpec pre u = false := by
      rw [← hd.keys u]
      unfold hasNode
      rw [hu]
      rfl
    have hlkp : lookupNode { t with
        arena := t.arena ++ [ArenaNode.mk none []]
        node := (u, t.arena.length) :: t.node
        name := (t.arena.length, nm) :: t.name } p =
        (if u = p then some t.arena.length else lookupNode t p) := by
      show (((u, t.arena.length) :: t.node).find? (fun kv => kv.1 == p)).map Prod.snd = _
      rw [lookup_cons]
      rfl
    by_cases hup : u = p
    · -- self-append: the indextree append panics, contradicting success
      exfalso
      have hstep : t.add_folder u p nm =
          (appendNode (t.arena ++ [ArenaNode.mk none []]) t.arena.length t.arena.length).map
            (fun arena => { t with
              arena := arena
              node := (u, t.arena.length) :: t.node
              name := (t.arena.length, nm) :: t.name }) := by
        unfold Tree.add_folder
        rw [hu]
        simp only [newNode]
        rw [hlkp, if_pos hup]
      rw [hstep] at hadd
      have hself : appendNode (t.arena ++ [ArenaNode.mk none []]) t.arena.length
          t.arena.length = none := by
        unfold appendNode
        rw [if_pos ?_]
        show t.arena.length ∈ ancestors (t.arena ++ [ArenaNode.mk none []]) t.arena.length
        exact (mem_chainAux_iff ..).mpr ⟨0, by omega, rfl⟩
      rw [hself] at hadd
      exact Option.noConfusion hadd
    · rcases hp : lookupNode t p with _ | pn
      · -- fresh folder node and fresh parent node
        have hkp : keysSpec pre p = false := by
          rw [← hd.keys p]
          unfold hasNode
          rw [hp]
          rfl
        have hfrp : folderRec pre p = none := folderRec_none_of_keysSpec_false pre p hkp
        have hrootp := not_root_of_keysSpec_false pre p hkp
        have hstep : t.add_folder u p nm =
            (appendNode (t.arena ++ [ArenaNode.mk none []] ++ [ArenaNode.mk none []])
              (t.arena.length + 1) t.arena.length).map
              (fun arena => { t with
                arena := arena
                node := (p, t.arena.length + 1) :: (u, t.arena.length) :: t.node
                name := (t.arena.length, nm) :: t.name }) := by
          unfold Tree.add_folder
          rw [hu]
          simp only [newNode]
          rw [hlkp, if_neg hup, hp,
            show (t.arena ++ [ArenaNode.mk none []]).length = t.arena.length + 1 from by
              simp]
        rcases happ : appendNode (t.arena ++ [ArenaNode.mk none []] ++ [ArenaNode.mk none []])
            (t.arena.length + 1) t.arena.length with _ | arena'
        · rw [hstep, happ] at hadd
          exact Option.noConfusion hadd
        · rw [hstep, happ] at hadd
          have ht' : t' = { t with
              arena := arena'
              node := (p, t.arena.length + 1) :: (u, t.arena.length) :: t.node
              name := (t.arena.length, nm) :: t.name } :=
            (Option.some.injEq .. ▸ hadd).symm
          rcases appendNode_wf _ (t.arena.length + 1) t.arena.length arena'
              (extend_wf _ (extend_wf _ hd.wf.arena))
              (by simp) (by simp)
              (by show parentOf (t.arena ++ [ArenaNode.mk none []] ++ [ArenaNode.mk none []])
                    t.arena.length = none
                  rw [parentOf_extend, if_neg (by simp), parentOf_extend, if_pos rfl])
              happ with ⟨hwfA, hlen, hparC, hparO, _, _⟩
          have hlen' : arena'.length = t.arena.length + 2 := by
            rw [hlen]
            simp
          have harena : t'.arena = arena' := by rw [ht']
          have hnodeEq : t'.node = (p, t.arena.length + 1) :: (u, t.arena.length) :: t.node := by
            rw [ht']
          have hnameEq : t'.name = (t.arena.length, nm) :: t.name := by rw [ht']
          have hfilesEq : t'.files = t.files := by rw [ht']
          have hlk' : ∀ w, lookupNode t' w =
              if p = w then some (t.arena.length + 1)
              else if u = w then some t.arena.length else lookupNode t w := by
            intro w
            unfold lookupNode
            rw [hnodeEq, lookup_cons, lookup_cons]
          have huon : ∀ m, m ≠ t.arena.length → m ≠ t.arena.length + 1 →
              uuidOfNode t' m = uuidOfNode t m := by
            intro m h1 h2
            unfold uuidOfNode
            rw [hnodeEq, revLookup_cons _ _ _ _ (fun h => h2 h.symm),
              revLookup_cons _ _ _ _ (fun h => h1 h.symm)]
          have huonLen1 : uuidOfNode t' (t.arena.length + 1) = some p := by
            unfold uuidOfNode
            rw [hnodeEq, List.find?_cons_of_pos _ (by simp)]
            rfl
          have huonLen : uuidOfNode t' t.arena.length = some u := by
            unfold uuidOfNode
            rw [hnodeEq, List.find?_cons_of_neg _ (by simp),
              List.find?_cons_of_pos _ (by simp)]
            rfl
          have hlnm : ∀ m, lookupName t' m =
              if t.arena.length = m then some nm else lookupName t m := by
            intro m
            unfold lookupName
            rw [hnameEq, lookupName_cons]
          have hlf : ∀ m, lookupFiles t' m = lookupFiles t m := by
            intro m
            unfold lookupFiles
            rw [hfilesEq]
          refine ⟨hwf', ?_, ?_, ?_, ?_, ?_, ?_⟩
          · intro kv hkv
            rw [hnameEq] at hkv
            rw [harena, hlen']
            rcases List.mem_cons.mp hkv with rfl | h
            · simp
            · have := hd.names_lt kv h
              omega
          · intro kv hkv
            rw [hfilesEq] at hkv
            rw [harena, hlen']
            have := hd.files_lt kv hkv
            omega
          · intro w
            rw [keysSpec_folder_append]
            unfold hasNode
            rw [hlk' w]
            by_cases hpw : p = w
            · rw [if_pos hpw]
              have h2 : (p == w) = true := by simp [hpw]
              rw [h2]
              simp
            · rw [if_neg hpw]
              have h2 : (p == w) = false := by simpa using hpw
              rw [h2, Bool.or_false]
              by_cases huw : u = w
              · rw [if_pos huw]
                have h1 : (u == w) = true := by simp [huw]
                rw [h1]
                simp
              · rw [if_neg huw]
                have h1 : (u == w) = false := by simpa using huw
                rw [h1, Bool.or_false]
                exact hd.keys w
          · intro w
            rw [parentSpec_folder_append pre u p nm w hfresh]
            unfold parentUuid
            rw [hlk' w]
            by_cases hpw : p = w
            · have huw : ¬ u = w := fun h => hup (h.trans hpw.symm)
              rw [if_pos hpw, if_neg huw]
              subst hpw
              simp only [Option.some_bind]
              rw [harena, hparO _ (by omega), parentOf_extend, if_pos (by simp)]
              unfold parentSpec
              rw [hfrp]
              rfl
            · rw [if_neg hpw]
              by_cases huw : u = w
              · rw [if_pos huw, if_pos huw]
                simp only [Option.some_bind]
                rw [harena, hparC]
                simp only [Option.some_bind]
                exact huonLen1
              · rw [if_neg huw, if_neg huw, ← hd.par w]
                unfold parentUuid
                rcases hw : lookupNode t w with _ | m
                · rfl
                · simp only [Option.some_bind]
                  have hmlt : m < t.arena.length := lookupNode_lt t w m hd.wf hw
                  rw [harena, hparO m (by omega), parentOf_extend,
                    if_neg (by simp; omega), parentOf_extend, if_neg (by omega)]
                  rcases hq : parentOf t.arena m with _ | q
                  · rfl
                  · simp only [Option.some_bind]
                    have hqlt : q < t.arena.length := hd.wf.arena.parent_lt m q hq
                    exact huon q (by omega) (by omega)
          · intro w
            rw [nameSpec_folder_append pre u p nm w hfresh]
            unfold nameOfUuid
            rw [hlk' w]
            by_cases hpw : p = w
            · have huw : ¬ u = w := fun h => hup (h.trans hpw.symm)
              rw [if_pos hpw, if_neg huw]
              subst hpw
              simp only [Option.some_bind]
              rw [hlnm (t.arena.length + 1), if_neg (by omega),
                lookupName_none_of_ge t _ hd.names_lt (by omega)]
              have hns : nameSpec pre p = none := by
                unfold nameSpec
                rw [hfrp]
                have h1 : (p == "trash") = false := by simpa using hrootp.2
                have h2 : (p == "") = false := by simpa using hrootp.1
                simp [h1, h2]
              rw [hns]
            · rw [if_neg hpw]
              by_cases huw : u = w
              · rw [if_pos huw, if_pos huw]
                simp only [Option.some_bind]
                rw [hlnm t.arena.length, if_pos rfl]
              · rw [if_neg huw, if_neg huw, ← hd.nms w]
                unfold nameOfUuid
                rcases hw : lookupNode t w with _ | m
                · rfl
                · simp only [Option.some_bind]
                  have hmlt : m < t.arena.length := lookupNode_lt t w m hd.wf hw
                  rw [hlnm m, if_neg (by omega)]
          · intro w
            rw [filesSpec_folder_append]
            unfold filesOfUuid
            rw [hlk' w]
            by_cases hpw : p = w
            · rw [if_pos hpw]
              subst hpw
              simp only [Option.some_bind]
              rw [hlf (t.arena.length + 1),
                lookupFiles_none_of_ge t _ hd.files_lt (by omega),
                filesSpec_nil_of_keysSpec_false pre p hkp]
              rfl
            · rw [if_neg hpw]
              by_cases huw : u = w
              · rw [if_pos huw]
                subst huw
                simp only [Option.some_bind]
                rw [hlf t.arena.length,
                  lookupFiles_none_of_ge t _ hd.files_lt (Nat.le_refl _),
                  filesSpec_nil_of_keysSpec_false pre u hku]
                rfl
              · rw [if_neg huw, ← hd.fls w]
                unfold filesOfUuid
                rcases hw : lookupNode t w with _ | m
                · rfl
                · simp only [Option.some_bind]
                  rw [hlf m]
      · -- fresh folder node, existing parent node
        have hpn : pn < t.arena.length := lookupNode_lt t p pn hd.wf hp
        have hstep : t.add_folder u p nm =
            (appendNode (t.arena ++ [ArenaNode.mk none []]) pn t.arena.length).map
              (fun arena => { t with
                arena := arena
                node := (u, t.arena.length) :: t.node
                name := (t.arena.length, nm) :: t.name }) := by
          unfold Tree.add_folder
          rw [hu]
          simp only [newNode]
          rw [hlkp, if_neg hup, hp]
        rcases happ : appendNode (t.arena ++ [ArenaNode.mk none []]) pn t.arena.length
          with _ | arena'
        · rw [hstep, happ] at hadd
          exact Option.noConfusion hadd
        · rw [hstep, happ] at hadd
          have ht' : t' = { t with
              arena := arena'
              node := (u, t.arena.length) :: t.node
              name := (t.arena.length, nm) :: t.name } :=
            (Option.some.injEq .. ▸ hadd).symm
          rcases appendNode_wf _ pn t.arena.length arena'
              (extend_wf _ hd.wf.arena)
              (by simp; omega) (by simp)
              (by show parentOf (t.arena ++ [ArenaNode.mk none []]) t.arena.length = none
                  rw [parentOf_extend, if_pos rfl])
              happ with ⟨hwfA, hlen, hparC, hparO, _, _⟩
          have hlen' : arena'.length = t.arena.length + 1 := by
            rw [hlen]
            simp
          have harena : t'.arena = arena' := by rw [ht']
          have hnodeEq : t'.node = (u, t.arena.length) :: t.node := by rw [ht']
          have hnameEq : t'.name = (t.arena.length, nm) :: t.name := by rw [ht']
          have hfilesEq : t'.files = t.files := by rw [ht']
          have hlk' : ∀ w, lookupNode t' w =
              if u = w then some t.arena.length else lookupNode t w := by
            intro w
            unfold lookupNode
            rw [hnodeEq, lookup_cons]
          have huon : ∀ m, m ≠ t.arena.length → uuidOfNode t' m = uuidOfNode t m := by
            intro m h1
            unfold uuidOfNode
            rw [hnodeEq, revLookup_cons _ _ _ _ (fun h => h1 h.symm)]
          have huonLen : uuidOfNode t' t.arena.length = some u := by
            unfold uuidOfNode
            rw [hnodeEq, List.find?_cons_of_pos _ (by simp)]
            rfl
          have hlnm : ∀ m, lookupName t' m =
              if t.arena.length = m then some nm else lookupName t m := by
            intro m
            unfold lookupName
            rw [hnameEq, lookupName_cons]
          have hlf : ∀ m, lookupFiles t' m = lookupFiles t m := by
            intro m
            unfold lookupFiles
            rw [hfilesEq]
          refine ⟨hwf', ?_, ?_, ?_, ?_, ?_, ?_⟩
          · intro kv hkv
            rw [hnameEq] at hkv
            rw [harena, hlen']
            rcases List.mem_cons.mp hkv with rfl | h
            · simp
            · have := hd.names_lt kv h
              omega
          · intro kv hkv
            rw [hfilesEq] at hkv
            rw [harena, hlen']
            have := hd.files_lt kv hkv
            omega
          · intro w
            rw [keysSpec_folder_append]
            unfold hasNode
            rw [hlk' w]
            by_cases huw : u = w
            · rw [if_pos huw]
              have h1 : (u == w) = true := by simp [huw]
              rw [h1]
              simp
            · rw [if_neg huw]
              have h1 : (u == w) = false := by simpa using huw
              rw [h1, Bool.false_or]
              by_cases hpw : p = w
              · have hk : keysSpec pre w = true := by
                  rw [← hd.keys w]
                  unfold hasNode
                  rw [← hpw, hp]
                  rfl
                rw [hk]
                have hsw : ((lookupNode t w).isSome : Bool) = true := by
                  rw [← hpw, hp]
                  rfl
                rw [hsw]
                simp
              · have h2 : (p == w) = false := by simpa using hpw
                rw [h2, Bool.or_false]
                exact hd.keys w
          · intro w
            rw [parentSpec_folder_append pre u p nm w hfresh]
            unfold parentUuid
            rw [hlk' w]
            by_cases huw : u = w
            · rw [if_pos huw, if_pos huw]
              simp only [Option.some_bind]
              rw [harena, hparC]
              simp only [Option.some_bind]
              rw [huon pn (by omega)]
              exact uuidOfNode_of_mem t p pn hd.wf (lookupNode_some_mem t p pn hp)
            · rw [if_neg huw, if_neg huw, ← hd.par w]
              unfold parentUuid
              rcases hw : lookupNode t w with _ | m
              · rfl
              · simp only [Option.some_bind]
                have hmlt : m < t.arena.length := lookupNode_lt t w m hd.wf hw
                rw [harena, hparO m (by omega), parentOf_extend, if_neg (by omega)]
                rcases hq : parentOf t.arena m with _ | q
                · rfl
                · simp only [Option.some_bind]
                  have hqlt : q < t.arena.length := hd.wf.arena.parent_lt m q hq
                  exact huon q (by omega)
          · intro w
            rw [nameSpec_folder_append pre u p nm w hfresh]
            unfold nameOfUuid
            rw [hlk' w]
            by_cases huw : u = w
            · rw [if_pos huw, if_pos huw]
              simp only [Option.some_bind]
              rw [hlnm t.arena.length, if_pos rfl]
            · rw [if_neg huw, if_neg huw, ← hd.nms w]
              unfold nameOfUuid
              rcases hw : lookupNode t w with _ | m
              · rfl
              · simp only [Option.some_bind]
                have hmlt : m < t.arena.length := lookupNode_lt t w m hd.wf hw
                rw [hlnm m, if_neg (by omega)]
          · intro w
            rw [filesSpec_folder_append]
            unfold filesOfUuid
            rw [hlk' w]
            by_cases huw : u = w
            · rw [if_pos huw]
              subst huw
              simp only [Option.some_bind]
              rw [hlf t.arena.length,
                lookupFiles_none_of_ge t _ hd.files_lt (Nat.le_refl _),
                filesSpec_nil_of_keysSpec_false pre u hku]
              rfl
            · rw [if_neg huw, ← hd.fls w]
              unfold filesOfUuid
              rcases hw : lookupNode t w with _ | m
              · rfl
              · simp only [Option.some_bind]
                rw [hlf m]
  · -- existing folder node `n`
    have hnpar : parentOf t.arena n = none := hnopar n hu
    have hn : n < t.arena.length := lookupNode_lt t u n hd.wf hu
    have hlkp : lookupNode { t with name := (n, nm) :: t.name } p = lookupNode t p := rfl
    rcases hp : lookupNode t p with _ | pn
    · -- existing folder node, fresh parent node
      have hpu : p ≠ u := by
        intro h
        rw [h, hu] at hp
        exact Option.noConfusion hp
      have hkp : keysSpec pre p = false := by
        rw [← hd.keys p]
        unfold hasNode
        rw [hp]
        rfl
      have hfrp : folderRec pre p = none := folderRec_none_of_keysSpec_false pre p hkp
      have hrootp := not_root_of_keysSpec_false pre p hkp
      have hstep : t.add_folder u p nm =
          (appendNode (t.arena ++ [ArenaNode.mk none []]) t.arena.length n).map
            (fun arena => { t with
              arena := arena
              node := (p, t.arena.length) :: t.node
              name := (n, nm) :: t.name }) := by
        unfold Tree.add_folder
        rw [hu]
        simp only [newNode]
        rw [hlkp, hp]
      rcases happ : appendNode (t.arena ++ [ArenaNode.mk none []]) t.arena.length n
        with _ | arena'
      · rw [hstep, happ] at hadd
        exact Option.noConfusion hadd
      · rw [hstep, happ] at hadd
        have ht' : t' = { t with
            arena := arena'
            node := (p, t.arena.length) :: t.node
            name := (n, nm) :: t.name } :=
          (Option.some.injEq .. ▸ hadd).symm
        rcases appendNode_wf _ t.arena.length n arena'
            (extend_wf _ hd.wf.arena)
            (by simp) (by simp; omega)
            (by show parentOf (t.arena ++ [ArenaNode.mk none []]) n = none
                rw [parentOf_extend, if_neg (by omega)]
                exact hnpar)
            happ with ⟨hwfA, hlen, hparC, hparO, _, _⟩
        have hlen' : arena'.length = t.arena.length + 1 := by
          rw [hlen]
          simp
        have harena : t'.arena = arena' := by rw [ht']
        have hnodeEq : t'.node = (p, t.arena.length) :: t.node := by rw [ht']
        have hnameEq : t'.name = (n, nm) :: t.name := by rw [ht']
        have hfilesEq : t'.files = t.files := by rw [ht']
        have hlk' : ∀ w, lookupNode t' w =
            if p = w then some t.arena.length else lookupNode t w := by
          intro w
          unfold lookupNode
          rw [hnodeEq, lookup_cons]
        have huon : ∀ m, m ≠ t.arena.length → uuidOfNode t' m = uuidOfNode t m := by
          intro m h1
          unfold uuidOfNode
          rw [hnodeEq, revLookup_cons _ _ _ _ (fun h => h1 h.symm)]
        have huonLen : uuidOfNode t' t.arena.length = some p := by
          unfold uuidOfNode
          rw [hnodeEq, List.find?_cons_of_pos _ (by simp)]
          rfl
        have hlnm : ∀ m, lookupName t' m =
            if n = m then some nm else lookupName t m := by
          intro m
          unfold lookupName
          rw [hnameEq, lookupName_cons]
        have hlf : ∀ m, lookupFiles t' m = lookupFiles t m := by
          intro m
          unfold lookupFiles
          rw [hfilesEq]
        refine ⟨hwf', ?_, ?_, ?_, ?_, ?_, ?_⟩
        · intro kv hkv
          rw [hnameEq] at hkv
          rw [harena, hlen']
          rcases List.mem_cons.mp hkv with rfl | h
          · simp
            omega
          · have := hd.names_lt kv h
            omega
        · intro kv hkv
          rw [hfilesEq] at hkv
          rw [harena, hlen']
          have := hd.files_lt kv hkv
          omega
        · intro w
          rw [keysSpec_folder_append]
          unfold hasNode
          rw [hlk' w]
          by_cases hpw : p = w
          · rw [if_pos hpw]
            have h2 : (p == w) = true := by simp [hpw]
            rw [h2]
            simp
          · rw [if_neg hpw]
            have h2 : (p == w) = false := by simpa using hpw
            rw [h2, Bool.or_false]
            by_cases huw : u = w
            · have hk : keysSpec pre w = true := by
                rw [← hd.keys w]
                unfold hasNode
                rw [← huw, hu]
                rfl
              rw [hk]
              have hsw : ((lookupNode t w).isSome : Bool) = true := by
                rw [← huw, hu]
                rfl
              rw [hsw]
              simp
            · have h1 : (u == w) = false := by simpa using huw
              rw [h1, Bool.or_false]
              exact hd.keys w
        · intro w
          rw [parentSpec_folder_append pre u p nm w hfresh]
          unfold parentUuid
          rw [hlk' w]
          by_cases hpw : p = w
          · have huw : ¬ u = w := fun h => hpu (hpw.trans h.symm)
            rw [if_pos hpw, if_neg huw]
            subst hpw
            simp only [Option.some_bind]
            rw [harena, hparO _ (by omega), parentOf_extend, if_pos rfl]
            unfold parentSpec
            rw [hfrp]
            rfl
          · rw [if_neg hpw]
            by_cases huw : u = w
            · rw [if_pos huw]
              have hlw : lookupNode t w = some n := by
                rw [← huw]
                exact hu
              rw [hlw]
              simp only [Option.some_bind]
              rw [harena, hparC]
              simp only [Option.some_bind]
              exact huonLen
            · rw [if_neg huw, ← hd.par w]
              unfold parentUuid
              rcases hw : lookupNode t w with _ | m
              · rfl
              · simp only [Option.some_bind]
                have hmlt : m < t.arena.length := lookupNode_lt t w m hd.wf hw
                have hmn : m ≠ n := fun h =>
                  huw (lookupNode_inj t hd.wf u w n hu (h ▸ hw))
                rw [harena, hparO m hmn, parentOf_extend, if_neg (by omega)]
                rcases hq : parentOf t.arena m with _ | q
                · rfl
                · simp only [Option.some_bind]
                  have hqlt : q < t.arena.length := hd.wf.arena.parent_lt m q hq
                  exact huon q (by omega)
        · intro w
          rw [nameSpec_folder_append pre u p nm w hfresh]
          unfold nameOfUuid
          rw [hlk' w]
          by_cases hpw : p = w
          · have huw : ¬ u = w := fun h => hpu (hpw.trans h.symm)
            rw [if_pos hpw, if_neg huw]
            subst hpw
            simp only [Option.some_bind]
            rw [hlnm t.arena.length, if_neg (by omega),
              lookupName_none_of_ge t _ hd.names_lt (Nat.le_refl _)]
            have hns : nameSpec pre p = none := by
              unfold nameSpec
              rw [hfrp]
              have h1 : (p == "trash") = false := by simpa using hrootp.2
              have h2 : (p == "") = false := by simpa using hrootp.1
              simp [h1, h2]
            rw [hns]
          · rw [if_neg hpw]
            by_cases huw : u = w
            · rw [if_pos huw]
              have hlw : lookupNode t w = some n := by
                rw [← huw]
                exact hu
              rw [hlw]
              simp only [Option.some_bind]
              rw [hlnm n, if_pos rfl]
            · rw [if_neg huw, ← hd.nms w]
              unfold nameOfUuid
              rcases hw : lookupNode t w with _ | m
              · rfl
              · simp only [Option.some_bind]
                have hmn : m ≠ n := fun h =>
                  huw (lookupNode_inj t hd.wf u w n hu (h ▸ hw))
                rw [hlnm m, if_neg (fun h => hmn h.symm)]
        · intro w
          rw [filesSpec_folder_append]
          unfold filesOfUuid
          rw [hlk' w]
          by_cases hpw : p = w
          · rw [if_pos hpw]
            subst hpw
            simp only [Option.some_bind]
            rw [hlf t.arena.length,
              lookupFiles_none_of_ge t _ hd.files_lt (Nat.le_refl _),
              filesSpec_nil_of_keysSpec_false pre p hkp]
            rfl
          · rw [if_neg hpw, ← hd.fls w]
            unfold filesOfUuid
            rcases hw : lookupNode t w with _ | m
            · rfl
            · simp only [Option.some_bind]
              rw [hlf m]
    · -- existing folder node, existing parent node
      have hpn : pn < t.arena.length := lookupNode_lt t p pn hd.wf hp
      have hstep : t.add_folder u p nm =
          (appendNode t.arena pn n).map
            (fun arena => { t with
              arena := arena
              name := (n, nm) :: t.name }) := by
        unfold Tree.add_folder
        rw [hu]
        simp only [newNode]
        rw [hlkp, hp]
      rcases happ : appendNode t.arena pn n with _ | arena'
      · rw [hstep, happ] at hadd
        exact Option.noConfusion hadd
      · rw [hstep, happ] at hadd
        have ht' : t' = { t with
            arena := arena'
            name := (n, nm) :: t.name } :=
          (Option.some.injEq .. ▸ hadd).symm
        rcases appendNode_wf _ pn n arena' hd.wf.arena hpn hn hnpar happ with
          ⟨hwfA, hlen, hparC, hparO, _, _⟩
        have harena : t'.arena = arena' := by rw [ht']
        have hnodeEq : t'.node = t.node := by rw [ht']
        have hnameEq : t'.name = (n, nm) :: t.name := by rw [ht']
        have hfilesEq : t'.files = t.files := by rw [ht']
        have hlk' : ∀ w, lookupNode t' w = lookupNode t w := by
          intro w
          unfold lookupNode
          rw [hnodeEq]
        have huon : ∀ m, uuidOfNode t' m = uuidOfNode t m := by
          intro m
          unfold uuidOfNode
          rw [hnodeEq]
        have hlnm : ∀ m, lookupName t' m =
            if n = m then some nm else lookupName t m := by
          intro m
          unfold lookupName
          rw [hnameEq, lookupName_cons]
        have hlf : ∀ m, lookupFiles t' m = lookupFiles t m := by
          intro m
          unfold lookupFiles
          rw [hfilesEq]
        refine ⟨hwf', ?_, ?_, ?_, ?_, ?_, ?_⟩
        · intro kv hkv
          rw [hnameEq] at hkv
          rw [harena, hlen]
          rcases List.mem_cons.mp hkv with rfl | h
          · simpa using hn
          · exact hd.names_lt kv h
        · intro kv hkv
          rw [hfilesEq] at hkv
          rw [harena, hlen]
          exact hd.files_lt kv hkv
        · intro w
          rw [keysSpec_folder_append]
          unfold hasNode
          rw [hlk' w]
          by_cases huw : u = w
          · have hk : keysSpec pre w = true := by
              rw [← hd.keys w]
              unfold hasNode
              rw [← huw, hu]
              rfl
            rw [hk]
            have hsw : ((lookupNode t w).isSome : Bool) = true := by
              rw [← huw, hu]
              rfl
            rw [hsw]
            simp
          · by_cases hpw : p = w
            · have hk : keysSpec pre w = true := by
                rw [← hd.keys w]
                unfold hasNode
                rw [← hpw, hp]
                rfl
              rw [hk]
              have hsw : ((lookupNode t w).isSome : Bool) = true := by
                rw [← hpw, hp]
                rfl
              rw [hsw]
              simp
            · have h1 : (u == w) = false := by simpa using huw
              have h2 : (p == w) = false := by simpa using hpw
              rw [h1, h2]
              simpa using hd.keys w
        · intro w
          rw [parentSpec_folder_append pre u p nm w hfresh]
          unfold parentUuid
          rw [hlk' w]
          by_cases huw : u = w
          · rw [if_pos huw]
            have hlw : lookupNode t w = some n := by
              rw [← huw]
              exact hu
            rw [hlw]
            simp only [Option.some_bind]
            rw [harena, hparC]
            simp only [Option.some_bind]
            rw [huon pn]
            exact uuidOfNode_of_mem t p pn hd.wf (lookupNode_some_mem t p pn hp)
          · rw [if_neg huw, ← hd.par w]
            unfold parentUuid
            rcases hw : lookupNode t w with _ | m
            · rfl
            · simp only [Option.some_bind]
              have hmn : m ≠ n := fun h =>
                huw (lookupNode_inj t hd.wf u w n hu (h ▸ hw))
              rw [harena, hparO m hmn]
              rcases hq : parentOf t.arena m with _ | q
              · rfl
              · simp only [Option.some_bind]
                exact huon q
        · intro w
          rw [nameSpec_folder_append pre u p nm w hfresh]
          unfold nameOfUuid
          rw [hlk' w]
          by_cases huw : u = w
          · rw [if_pos huw]
            have hlw : lookupNode t w = some n := by
              rw [← huw]
              exact hu
            rw [hlw]
            simp only [Option.some_bind]
            rw [hlnm n, if_pos rfl]
          · rw [if_neg huw, ← hd.nms w]
            unfold nameOfUuid
            rcases hw : lookupNode t w with _ | m
            · rfl
            · simp only [Option.some_bind]
              have hmn : m ≠ n := fun h =>
                huw (lookupNode_inj t hd.wf u w n hu (h ▸ hw))
              rw [hlnm m, if_neg (fun h => hmn h.symm)]
        · intro w
          rw [filesSpec_folder_append]
          unfold filesOfUuid
          rw [hlk' w, ← hd.fls w]
          unfold filesOfUuid
          rcases hw : lookupNode t w with _ | m
          · rfl
          · simp only [Option.some_bind]
            rw [hlf m]

/-- `any` is permutation-invariant. -/
theorem any_eq_of_perm {α : Type} (l l' : List α) (h : l.Perm l') (f : α → Bool) :
    l.any f = l'.any f := by
  cases hl : l.any f
  · cases hl' : l'.any f
    · rfl
    · exfalso
      rcases List.any_eq_true.mp hl' with ⟨x, hx, hfx⟩
      have hc : l.any f = true := List.any_eq_true.mpr ⟨x, h.symm.subset hx, hfx⟩
      rw [hl] at hc
      exact Bool.noConfusion hc
  · rcases List.any_eq_true.mp hl with ⟨x, hx, hfx⟩
    exact (List.any_eq_true.mpr ⟨x, h.subset hx, hfx⟩).symm

/-- With distinct uuids, the folder record of `u` is the same in any
permutation of the records. -/
theorem folderRec_perm (items items' : List Item) (hperm : items.Perm items')
    (hnodup : (items.map Item.uuid).Nodup) (u : String) :
    folderRec items u = folderRec items' u := by
  rcases h : folderRec items u with _ | r
  · have h2 : items.find? (fun it => it.isFolder && it.uuid == u) = none := h
    unfold folderRec
    rw [List.find?_eq_none.mpr (fun y hy => ?_)]
    exact List.find?_eq_none.mp h2 y (hperm.symm.subset hy)
  · have h2 : items.find? (fun it => it.isFolder && it.uuid == u) = some r := h
    have hmem := List.mem_of_find?_eq_some h2
    have hpred := List.find?_some h2
    simp at hpred
    have huniq : ∀ y ∈ items', (fun it => it.isFolder && it.uuid == u) y = true →
        y = r := by
      intro y hy hpy
      simp at hpy
      have hy2 : y ∈ items := hperm.symm.subset hy
      exact List.inj_on_of_nodup_map hnodup hy2 hmem (by rw [hpy.2, hpred.2])
    unfold folderRec
    rw [find?_eq_some_of_unique items' _ r (hperm.subset hmem)
      (by simp [hpred.1, hpred.2]) huniq]

/-- Sequentially processing records from a described state keeps the
tree described, provided the uuids are globally distinct. -/
theorem buildFrom_desc (rest : List Item) : ∀ (pre : List Item) (t t' : Tree),
    Desc pre t → ((pre ++ rest).map Item.uuid).Nodup →
    buildFrom t rest = some t' → Desc (pre ++ rest) t' := by
  induction rest with
  | nil =>
    intro pre t t' hd _ hb
    rw [List.append_nil]
    have hb2 : some t = some t' := hb
    rw [← Option.some.inj hb2]
    exact hd
  | cons it rest ih =>
    intro pre t t' hd hnodup hb
    have hassoc : pre ++ it :: rest = (pre ++ [it]) ++ rest := by simp
    rcases ha : applyItem t it with _ | t1
    · simp only [buildFrom] at hb
      rw [ha] at hb
      exact Option.noConfusion hb
    · simp only [buildFrom] at hb
      rw [ha] at hb
      have hd1 : Desc (pre ++ [it]) t1 := by
        rcases it with ⟨u, p, nmi⟩ | ⟨fu, fp, fn⟩
        · have hfresh : folderRec pre u = none := by
            rcases hfr : folderRec pre u with _ | r
            · rfl
            · exfalso
              have hfr2 : pre.find? (fun x => x.isFolder && x.uuid == u) = some r := hfr
              have hmem := List.mem_of_find?_eq_some hfr2
              have hpred := List.find?_some hfr2
              simp at hpred
              have hmap : (pre ++ Item.folder u p nmi :: rest).map Item.uuid =
                  pre.map Item.uuid ++
                    (u :: rest.map Item.uuid) := by simp [Item.uuid]
              rw [hmap] at hnodup
              have hdisj := (List.nodup_append.mp hnodup).2.2
              exact hdisj (List.mem_map.mpr ⟨r, hmem, hpred.2⟩) (by simp)
          have ha2 : t.add_folder u p nmi = some t1 := ha
          exact desc_add_folder pre t u p nmi t1 hd hfresh ha2
        · have ha2 : some (t.add_file fu fp fn) = some t1 := ha
          rw [← Option.some.inj ha2]
          exact desc_add_file pre t fu fp fn hd
      rw [hassoc]
      refine ih (pre ++ [it]) t1 t' hd1 ?_ hb
      rw [← hassoc]
      exact hnodup

/-- C5: tree building is insertion-order independent.  For records with
distinct uuids (the reMarkable data model: one metadata file per uuid), any
two permutations that both build successfully produce isomorphic trees: the
same uuids have nodes, every uuid has the same parent uuid and display name,
and each folder's file list holds the same files (as a multiset; the order
within a file list follows the arrival order of the file records). -/
theorem c5_build_insertion_order_independent (items items' : List Item)
    (t t' : Tree) (hperm : items.Perm items')
    (hnodup : (items.map Item.uuid).Nodup)
    (hb : buildItems items = some t) (hb' : buildItems items' = some t') :
    (∀ u, hasNode t u = hasNode t' u) ∧
    (∀ u, parentUuid t u = parentUuid t' u) ∧
    (∀ u, nameOfUuid t u = nameOfUuid t' u) ∧
    (∀ u, (filesOfUuid t u).Perm (filesOfUuid t' u)) := by
  have hnodup' : (items'.map Item.uuid).Nodup :=
    (hperm.map Item.uuid).nodup_iff.mp hnodup
  have hd : Desc items t := by
    have := buildFrom_desc items [] Tree.new t desc_new (by simpa using hnodup) hb
    rwa [List.nil_append] at this
  have hd' : Desc items' t' := by
    have := buildFrom_desc items' [] Tree.new t' desc_new (by simpa using hnodup') hb'
    rwa [List.nil_append] at this
  refine ⟨?_, ?_, ?_, ?_⟩
  · intro u
    rw [hd.keys u, hd'.keys u]
    unfold keysSpec
    rw [any_eq_of_perm items items' hperm]
  · intro u
    rw [hd.par u, hd'.par u]
    unfold parentSpec
    rw [folderRec_perm items items' hperm hnodup u]
  · intro u
    rw [hd.nms u, hd'.nms u]
    unfold nameSpec
    rw [folderRec_perm items items' hperm hnodup u]
  · intro u
    rw [hd.fls u, hd'.fls u]
    unfold filesSpec
    exact hperm.filterMap _

/-- Witness for C5 at a concrete pair of permutations: a folder record and a
file record into it, in both orders; the built trees agree on node
existence, parents, names and (as multisets) file lists. -/
theorem c5_build_insertion_order_independent_witness :
    (∀ u, hasNode
        ((buildItems [Item.folder "A" "" "a", Item.file "f" "A" "n"]).getD Tree.new) u =
      hasNode
        ((buildItems [Item.file "f" "A" "n", Item.folder "A" "" "a"]).getD Tree.new) u) ∧
    (∀ u, (filesOfUuid
        ((buildItems [Item.folder "A" "" "a", Item.file "f" "A" "n"]).getD Tree.new) u).Perm
      (filesOfUuid
        ((buildItems [Item.file "f" "A" "n", Item.folder "A" "" "a"]).getD Tree.new) u)) := by
  have h := c5_build_insertion_order_independent
    [Item.folder "A" "" "a", Item.file "f" "A" "n"]
    [Item.file "f" "A" "n", Item.folder "A" "" "a"]
    ((buildItems [Item.folder "A" "" "a", Item.file "f" "A" "n"]).getD Tree.new)
    ((buildItems [Item.file "f" "A" "n", Item.folder "A" "" "a"]).getD Tree.new)
    (by decide) (by decide) (by decide) (by decide)
  exact ⟨h.1, h.2.2.2⟩

/-! ## Depth-first traversal: `descendants` and `descendant_files` -/

/-- A one-step walk is a parent link. -/
theorem parIter_one (a : Arena) (v n : Nat) (h : parIter a 1 v = some n) :
    parentOf a v = some n := by
  have h2 : (match parentOf a v with
    | none => none
    | some q => parIter a 0 q : Option Nat) = some n := h
  rcases hq : parentOf a v with _ | q
  · rw [hq] at h2
    exact Option.noConfusion h2
  · rw [hq] at h2
    exact h2

/-- On an acyclic arena the walks from a node to a fixed target all have the
same length. -/
theorem walk_funnel (a : Arena)
    (hpl : ∀ n p, parentOf a n = some p → p < a.length)
    (hacyc : ∀ n, n < a.length → ∀ j, 0 < j → j ≤ a.length → parIter a j n ≠ some n)
    (m n i j : Nat) (hm : m < a.length) (hij : i < j)
    (hi : parIter a i m = some n) (hj : parIter a j m = some n) : False := by
  have hn : n < a.length := parIter_lt a hpl i m n hm hi
  have hsplit := parIter_add a i (j - i) m
  rw [show i + (j - i) = j from by omega, hj, hi] at hsplit
  simp only [Option.some_bind] at hsplit
  exact acyclic_unbounded a hpl hacyc n hn (j - i) (by omega) hsplit.symm

/-- Soundness of the depth-first traversal: everything it lists is in range
and reaches the subroot along parent links. -/
theorem desc_sound (a : Arena) (hwf : ArenaWF a) :
    ∀ (fuel n m : Nat), n < a.length → m ∈ descAux a fuel n →
      m < a.length ∧ ∃ j, parIter a j m = some n := by
  intro fuel
  induction fuel with
  | zero =>
    intro n m _ hm
    exact absurd hm (by simp [descAux])
  | succ fuel ih =>
    intro n m hn hm
    have hstep : descAux a (fuel + 1) n =
        n :: (childrenOf a n).flatMap (descAux a fuel) := by
      simp only [descAux]
    rw [hstep] at hm
    rcases List.mem_cons.mp hm with rfl | hm2
    · exact ⟨hn, 0, rfl⟩
    · rcases List.mem_flatMap.mp hm2 with ⟨c, hc, hmc⟩
      have hclt : c < a.length := hwf.child_lt n c hc
      rcases ih c m hclt hmc with ⟨hmlt, j, hj⟩
      refine ⟨hmlt, j + 1, ?_⟩
      have hadd := parIter_add a j 1 m
      rw [hj] at hadd
      simp only [Option.some_bind] at hadd
      rw [hadd]
      show (match parentOf a c with
        | none => none
        | some q => parIter a 0 q : Option Nat) = some n
      rw [(hwf.pc c n).mpr hc]
      rfl

/-- Completeness of the depth-first traversal: any node that reaches the
subroot along parent links within the fuel bound is listed. -/
theorem desc_complete (a : Arena) (hwf : ArenaWF a) :
    ∀ (j fuel m n : Nat), j < fuel → parIter a j m = some n →
      m ∈ descAux a fuel n := by
  intro j
  induction j with
  | zero =>
    intro fuel m n hfuel hj
    have hmn : m = n := by
      have h2 : some m = some n := hj
      exact Option.some.inj h2
    subst hmn
    rcases fuel with _ | f
    · omega
    · simp only [descAux]
      exact List.mem_cons_self ..
  | succ j ih =>
    intro fuel m n hfuel hj
    rcases fuel with _ | f
    · omega
    · rcases parIter_some_of_le a (j + 1) m n hj j (by omega) with ⟨v, hv⟩
      have hadd := parIter_add a j 1 m
      rw [hv] at hadd
      simp only [Option.some_bind] at hadd
      rw [hj] at hadd
      have hpv : parentOf a v = some n := parIter_one a v n hadd.symm
      have hvchild : v ∈ childrenOf a n := (hwf.pc v n).mp hpv
      have hmem : m ∈ descAux a f v := ih f m v (by omega) hv
      simp only [descAux]
      exact List.mem_cons_of_mem _ (List.mem_flatMap.mpr ⟨v, hvchild, hmem⟩)

/-- Any reachability along parent links is witnessed by a walk of at most
`a.length` steps (pigeonhole on the visited nodes). -/
theorem parIter_reach_bound (a : Arena)
    (hpl : ∀ n p, parentOf a n = some p → p < a.length)
    (hacyc : ∀ n, n < a.length → ∀ j, 0 < j → j ≤ a.length → parIter a j n ≠ some n) :
    ∀ (j m n : Nat), m < a.length → parIter a j m = some n →
      ∃ i < a.length + 1, parIter a i m = some n := by
  intro j
  induction j using Nat.strong_induction_on with
  | _ j IH =>
    intro m n hm hj
    by_cases hjle : j < a.length + 1
    · exact ⟨j, hjle, hj⟩
    · have hsome : ∀ i ≤ j, ∃ v, parIter a i m = some v :=
        parIter_some_of_le a j m n hj
      have hmaps : ∀ i ∈ Finset.range (a.length + 1),
          (parIter a i m).getD 0 ∈ Finset.range a.length := by
        intro i hi
        have hile : i ≤ j := by
          have := Finset.mem_range.mp hi
          omega
        rcases hsome i hile with ⟨v, hv⟩
        rw [hv]
        exact Finset.mem_range.mpr (parIter_lt a hpl i m v hm hv)
      have hcard : (Finset.range a.length).card <
          (Finset.range (a.length + 1)).card := by simp
      rcases Finset.exists_ne_map_eq_of_card_lt_of_maps_to hcard hmaps with
        ⟨i1, hi1, i2, hi2, hne, heq⟩
      have hi1' := Finset.mem_range.mp hi1
      have hi2' := Finset.mem_range.mp hi2
      rcases Nat.lt_or_ge i1 i2 with hlt | hge
      · rcases hsome i1 (by omega) with ⟨v, hv1⟩
        rcases hsome i2 (by omega) with ⟨w, hv2⟩
        have hvw : v = w := by
          rw [hv1, hv2] at heq
          simpa using heq
        subst hvw
        have hs1 := parIter_add a i2 (j - i2) m
        rw [show i2 + (j - i2) = j from by omega, hj, hv2] at hs1
        simp only [Option.some_bind] at hs1
        have hs2 := parIter_add a i1 (j - i2) m
        rw [hv1] at hs2
        simp only [Option.some_bind] at hs2
        rw [← hs1] at hs2
        exact IH (i1 + (j - i2)) (by omega) m n hm hs2
      · have hlt : i2 < i1 := by omega
        rcases hsome i2 (by omega) with ⟨v, hv1⟩
        rcases hsome i1 (by omega) with ⟨w, hv2⟩
        have hvw : v = w := by
          rw [hv1, hv2] at heq
          simpa using heq.symm
        subst hvw
        have hs1 := parIter_add a i1 (j - i1) m
        rw [show i1 + (j - i1) = j from by omega, hj, hv2] at hs1
        simp only [Option.some_bind] at hs1
        have hs2 := parIter_add a i2 (j - i1) m
        rw [hv1] at hs2
        simp only [Option.some_bind] at hs2
        rw [← hs1] at hs2
        exact IH (i2 + (j - i1)) (by omega) m n hm hs2

/-- The depth-first traversal of a well-formed arena lists no node twice:
sibling subtrees are disjoint because parent walks are functional. -/
theorem descAux_nodup (a : Arena) (hwf : ArenaWF a) :
    ∀ (fuel n : Nat), n < a.length → (descAux a fuel n).Nodup := by
  intro fuel
  induction fuel with
  | zero =>
    intro n _
    simp [descAux]
  | succ fuel ih =>
    intro n hn
    have hstep : descAux a (fuel + 1) n =
        n :: (childrenOf a n).flatMap (descAux a fuel) := by
      simp only [descAux]
    rw [hstep]
    refine List.nodup_cons.mpr ⟨?_, ?_⟩
    · intro hmem
      rcases List.mem_flatMap.mp hmem with ⟨c, hc, hm⟩
      have hclt : c < a.length := hwf.child_lt n c hc
      rcases (desc_sound a hwf fuel c n hclt hm).2 with ⟨j, hj⟩
      have hadd := parIter_add a j 1 n
      rw [hj] at hadd
      simp only [Option.some_bind] at hadd
      have h1 : parIter a 1 c = some n := by
        show (match parentOf a c with
          | none => none
          | some q => parIter a 0 q : Option Nat) = some n
        rw [(hwf.pc c n).mpr hc]
        rfl
      rw [h1] at hadd
      exact acyclic_unbounded a hwf.parent_lt hwf.acyclic n hn (j + 1) (by omega) hadd
    · rw [List.nodup_flatMap]
      refine ⟨fun c hc => ih c (hwf.child_lt n c hc), ?_⟩
      refine (hwf.childNodup n).imp_of_mem ?_
      intro c1 c2 hc1 hc2 hne
      intro x hx1 hx2
      have h1lt := hwf.child_lt n c1 hc1
      have h2lt := hwf.child_lt n c2 hc2
      rcases desc_sound a hwf fuel c1 x h1lt hx1 with ⟨hxlt, j1, hj1⟩
      rcases desc_sound a hwf fuel c2 x h2lt hx2 with ⟨_, j2, hj2⟩
      have e1 : parIter a (j1 + 1) x = some n := by
        have hadd := parIter_add a j1 1 x
        rw [hj1] at hadd
        simp only [Option.some_bind] at hadd
        rw [hadd]
        show (match parentOf a c1 with
          | none => none
          | some q => parIter a 0 q : Option Nat) = some n
        rw [(hwf.pc c1 n).mpr hc1]
        rfl
      have e2 : parIter a (j2 + 1) x = some n := by
        have hadd := parIter_add a j2 1 x
        rw [hj2] at hadd
        simp only [Option.some_bind] at hadd
        rw [hadd]
        show (match parentOf a c2 with
          | none => none
          | some q => parIter a 0 q : Option Nat) = some n
        rw [(hwf.pc c2 n).mpr hc2]
        rfl
      rcases Nat.lt_trichotomy (j1 + 1) (j2 + 1) with hlt | heq | hgt
      · exact walk_funnel a hwf.parent_lt hwf.acyclic x n (j1 + 1) (j2 + 1) hxlt hlt e1 e2
      · have hj12 : j1 = j2 := by omega
        subst hj12
        rw [hj1] at hj2
        exact hne (Option.some.inj hj2)
      · exact walk_funnel a hwf.parent_lt hwf.acyclic x n (j2 + 1) (j1 + 1) hxlt hgt e2 e1

/-- A `flatMap` over distinct in-range indices inherits freedom from
duplicates from the `flatMap` over the full range. -/
theorem nodup_flatMap_sub (n : Nat) (f : Nat → List String) (l : List Nat)
    (hl : l.Nodup) (hsub : ∀ x ∈ l, x < n)
    (hbig : ((List.range n).flatMap f).Nodup) : (l.flatMap f).Nodup := by
  rcases List.nodup_flatMap.mp hbig with ⟨hnod, hpair⟩
  have hdisj : ∀ i j, i < j → j < n → (Function.onFun List.Disjoint f) i j := by
    intro i j hij hj
    have h := List.pairwise_iff_getElem.mp hpair i j
      (by simpa using (by omega : i < n)) (by simpa using hj) hij
    simpa using h
  refine List.nodup_flatMap.mpr ⟨?_, ?_⟩
  · intro x hx
    exact hnod x (List.mem_range.mpr (hsub x hx))
  · refine hl.imp_of_mem ?_
    intro x y hxmem hymem hne
    rcases Nat.lt_trichotomy x y with hlt | heq | hgt
    · exact hdisj x y hlt (hsub y hymem)
    · exact absurd heq hne
    · exact List.Disjoint.symm (hdisj y x hgt (hsub x hxmem))

/-- C6 counterexample: the record list consisting of one Document parented
under the trash root builds successfully and the Document's id is attached
to the tree (under `"trash"`), yet `descendant_files` of the main root
(slot 1, uuid `""`) returns the empty list — the claim's "all Document ids
present in the input" fails for any id outside the chosen subroot. -/
theorem c6_counterexample :
    buildItems [Item.file "f" "trash" "doc"] =
      some ((buildItems [Item.file "f" "trash" "doc"]).getD Tree.new) ∧
    filesOfUuid ((buildItems [Item.file "f" "trash" "doc"]).getD Tree.new) "trash" =
      [("f", "doc")] ∧
    lookupNode ((buildItems [Item.file "f" "trash" "doc"]).getD Tree.new) "" = some 1 ∧
    Tree.descendant_files ((buildItems [Item.file "f" "trash" "doc"]).getD Tree.new) 1 =
      [] := by
  decide

/-- C6 (amended): on a well-formed tree, `descendant_files` of a subroot
lists, without duplicates (given globally distinct attached file ids),
exactly the file ids attached to the nodes whose ancestor chain passes
through the subroot — the subtree of the subroot, not all of the input. -/
theorem c6_descendant_files_characterization (t : Tree) (sr : Nat)
    (hwf : TreeWF t) (hsr : sr < t.arena.length)
    (hnodup : ((List.range t.arena.length).flatMap
      (fun m => ((lookupFiles t m).getD []).map Prod.fst)).Nodup) :
    (t.descendant_files sr).Nodup ∧
    (∀ u, u ∈ t.descendant_files sr ↔
      ∃ m < t.arena.length, sr ∈ ancestors t.arena m ∧
        u ∈ ((lookupFiles t m).getD []).map Prod.fst) := by
  have hdf : t.descendant_files sr = (descendants t.arena sr).flatMap
      (fun m => ((lookupFiles t m).getD []).map Prod.fst) := by
    unfold Tree.descendant_files
    congr 1
    funext folder
    rcases lookupFiles t folder with _ | content <;> rfl
  have hmemd : ∀ m, m ∈ descendants t.arena sr ↔
      m < t.arena.length ∧ sr ∈ ancestors t.arena m := by
    intro m
    constructor
    · intro hm
      rcases desc_sound t.arena hwf.arena _ sr m hsr hm with ⟨hmlt, j, hj⟩
      rcases parIter_reach_bound t.arena hwf.arena.parent_lt hwf.arena.acyclic j m sr
        hmlt hj with ⟨i, hi, hwalk⟩
      exact ⟨hmlt, (mem_chainAux_iff t.arena (t.arena.length + 1) m sr).mpr
        ⟨i, hi, hwalk⟩⟩
    · intro hm
      rcases hm with ⟨hmlt, hanc⟩
      rcases (mem_chainAux_iff t.arena (t.arena.length + 1) m sr).mp hanc with
        ⟨j, hjlt, hwalk⟩
      exact desc_complete t.arena hwf.arena j (t.arena.length + 1) m sr hjlt hwalk
  refine ⟨?_, ?_⟩
  · rw [hdf]
    refine nodup_flatMap_sub t.arena.length _ (descendants t.arena sr) ?_ ?_ hnodup
    · exact descAux_nodup t.arena hwf.arena _ sr hsr
    · intro x hx
      exact ((hmemd x).mp hx).1
  · intro u
    rw [hdf, List.mem_flatMap]
    constructor
    · intro hu
      rcases hu with ⟨m, hm, hu⟩
      rcases (hmemd m).mp hm with ⟨hmlt, hanc⟩
      exact ⟨m, hmlt, hanc, hu⟩
    · intro hu
      rcases hu with ⟨m, hmlt, hanc, hu⟩
      exact ⟨m, (hmemd m).mpr ⟨hmlt, hanc⟩, hu⟩

/-- Witness for C6 amended, on the tree built from a folder under the main
root carrying one file: both conjuncts of the characterization hold at
subroot 1. -/
theorem c6_descendant_files_characterization_witness :
    (((buildItems [Item.folder "A" "" "a", Item.file "f" "A" "n"]).getD
        Tree.new).descendant_files 1).Nodup ∧
    (∀ u, u ∈ ((buildItems [Item.folder "A" "" "a", Item.file "f" "A" "n"]).getD
        Tree.new).descendant_files 1 ↔
      ∃ m < ((buildItems [Item.folder "A" "" "a", Item.file "f" "A" "n"]).getD
          Tree.new).arena.length,
        1 ∈ ancestors ((buildItems [Item.folder "A" "" "a", Item.file "f" "A" "n"]).getD
          Tree.new).arena m ∧
        u ∈ ((lookupFiles ((buildItems [Item.folder "A" "" "a", Item.file "f" "A" "n"]).getD
          Tree.new) m).getD []).map Prod.fst) :=
  c6_descendant_files_characterization
    ((buildItems [Item.folder "A" "" "a", Item.file "f" "A" "n"]).getD Tree.new) 1
    ⟨arenaWFB_sound _ (by decide), by decide, by decide, by decide, by decide,
      by decide, by decide⟩
    (by decide) (by decide)

/-- C9 counterexample: (1) after `Tree::new` followed by a single
`add_file`, the placeholder created for the unseen parent `"p"` (slot 2, not
one of the two roots) has *no* parent — "every non-root node has exactly one
parent, assigned when the node is created" fails; (2) two `add_folder` calls
for the same uuid re-parent its node: after `add_folder "A" ""` the node's
parent is the main root (slot 1), and a later `add_folder "A" "trash"` moves
it under the trash root (slot 0) — "assigned once and never changed
afterwards, nodes are never re-parented" fails. -/
theorem c9_counterexample :
    (lookupNode (Tree.new.add_file "f" "p" "n") "p" = some 2 ∧
      (Tree.new.add_file "f" "p" "n").arena.length = 3 ∧
      parentOf (Tree.new.add_file "f" "p" "n").arena 2 = none) ∧
    ((Tree.new.add_folder "A" "" "a").map
        (fun t1 => (lookupNode t1 "A").bind (parentOf t1.arena)) = some (some 1) ∧
      ((Tree.new.add_folder "A" "" "a").bind
        (fun t1 => t1.add_folder "A" "trash" "a2")).map
          (fun t2 => (lookupNode t2 "A").bind (parentOf t2.arena)) = some (some 0)) := by
  refine ⟨⟨by decide, by decide, by decide⟩, by decide, by decide⟩

/-- C9 amended: starting from `Tree::new` (which is well-formed), `add_file`
preserves the invariant and never touches a parent link, and `add_folder` —
when each uuid is folder-added at most once, i.e. the folder's node has no
parent yet — preserves the invariant and changes no already-assigned parent
link (nodes are never re-parented).  The invariant gives the claim's other
clauses: each node sits in at most one child list (at most one parent), the
uuid → node map is injective, and the parent graph is acyclic
(`TreeWF.arena.acyclic`). -/
theorem c9_tree_invariants :
    TreeWF Tree.new ∧
    (∀ t u p nm, TreeWF t →
      TreeWF (t.add_file u p nm) ∧
      ∀ m, m < t.arena.length →
        parentOf (t.add_file u p nm).arena m = parentOf t.arena m) ∧
    (∀ t u p nm t', TreeWF t →
      (∀ k, lookupNode t u = some k → parentOf t.arena k = none) →
      t.add_folder u p nm = some t' →
      TreeWF t' ∧
      ∀ m q, parentOf t.arena m = some q → parentOf t'.arena m = some q) ∧
    (∀ t c, TreeWF t →
      ((List.range t.arena.length).filter
        (fun p => decide (c ∈ childrenOf t.arena p))).length ≤ 1) ∧
    (∀ t u v n, TreeWF t →
      lookupNode t u = some n → lookupNode t v = some n → u = v) := by
  refine ⟨treeWF_new, ?_, ?_, ?_, ?_⟩
  · intro t u p nm hwf
    rcases add_file_wf t u p nm hwf with ⟨h1, h2, _⟩
    exact ⟨h1, h2⟩
  · intro t u p nm t' hwf hone hadd
    exact add_folder_wf t u p nm t' hwf hone hadd
  · intro t c hwf
    have huniq : ∀ x ∈ (List.range t.arena.length).filter
        (fun p => decide (c ∈ childrenOf t.arena p)),
        ∀ y ∈ (List.range t.arena.length).filter
        (fun p => decide (c ∈ childrenOf t.arena p)), x = y := by
      intro x hx y hy
      have hcx : c ∈ childrenOf t.arena x := by
        have := List.of_mem_filter hx
        simpa using this
      have hcy : c ∈ childrenOf t.arena y := by
        have := List.of_mem_filter hy
        simpa using this
      have h1 := (hwf.arena.pc c x).mpr hcx
      have h2 := (hwf.arena.pc c y).mpr hcy
      rw [h1] at h2
      exact (Option.some.injEq .. ▸ h2)
    have hnd : ((List.range t.arena.length).filter
        (fun p => decide (c ∈ childrenOf t.arena p))).Nodup :=
      (List.nodup_range _).filter _
    match hl : (List.range t.arena.length).filter
        (fun p => decide (c ∈ childrenOf t.arena p)) with
    | [] => simp
    | [x] => simp
    | x :: y :: rest =>
      exfalso
      rw [hl] at hnd huniq
      have hxy : x = y := huniq x (List.mem_cons_self ..) y
        (List.mem_cons_of_mem _ (List.mem_cons_self ..))
      rcases List.pairwise_cons.mp hnd with ⟨hne, _⟩
      exact hne y (List.mem_cons_self ..) hxy
  · intro t u v n hwf hu hv
    have hmu := lookupNode_some_mem t u n hu
    have hmv := lookupNode_some_mem t v n hv
    have := List.inj_on_of_nodup_map hwf.valsNodup hmu hmv rfl
    exact (Prod.mk.injEq .. ▸ this).1

/-- Witness for C9 amended at a concrete input: adding folder `"A"` under
the main root of the fresh tree succeeds and yields a well-formed tree in
which the root's identity links are intact. -/
theorem c9_tree_invariants_witness :
    ∃ t', Tree.new.add_folder "A" "" "a" = some t' ∧ TreeWF t' := by
  rcases h : Tree.new.add_folder "A" "" "a" with _ | t1
  · exact absurd h (by decide)
  · refine ⟨t1, rfl,
      (c9_tree_invariants.2.2.1 Tree.new "A" "" "a" t1 c9_tree_invariants.1
        (fun k hk => ?_) h).1⟩
    rw [show lookupNode Tree.new "A" = none from by decide] at hk
    exact Option.noConfusion hk

/-! ## Claim C4: parse failures abort the whole `map` -/

/-- Parse every record, failing on the first unparseable one (the
`Option`-traversal of `parseRecord`). -/
def parseAll : List (String × Metadata) → Option (List Item)
  | [] => some []
  | r :: rest =>
    match parseRecord r with
    | none => none
    | some it => (parseAll rest).map (it :: ·)

/-- `mapRecords` is: parse everything, then build — from any starting tree. -/
theorem mapRecords_eq_parse_then_build :
    ∀ (recs : List (String × Metadata)) (t : Tree),
      mapRecords t recs = (parseAll recs).bind (buildFrom t) := by
  intro recs
  induction recs with
  | nil => intro t; rfl
  | cons r rest ih =>
    intro t
    show (match parseRecord r with
      | none => none
      | some it =>
        match applyItem t it with
        | none => none
        | some t' => mapRecords t' rest) = _
    rcases hr : parseRecord r with _ | it
    · simp [parseAll, hr]
    · simp only [parseAll, hr]
      rcases ha : applyItem t it with _ | t'
      · rcases hrest : parseAll rest with _ | its <;> simp [ha, hrest, buildFrom]
      · rcases hrest : parseAll rest with _ | its <;>
          simp [ha, hrest, ih t', buildFrom]

/-- C4 counterexample: one unparseable record (missing `parent` and
`visibleName` fields) aborts the whole `map` — the perfectly parseable record
after it is *not* incorporated; nothing is built at all. -/
theorem c4_map_counterexample :
    parseRecord ("u2", [("parent", FieldVal.str ""), ("visibleName", FieldVal.str "F"),
        ("type", FieldVal.str "CollectionType")]) = some (.folder "u2" "" "F") ∧
    parseRecord ("u1", [("type", FieldVal.str "DocumentType")]) = none ∧
    (mapAll [("u2", [("parent", FieldVal.str ""), ("visibleName", FieldVal.str "F"),
        ("type", FieldVal.str "CollectionType")])]).isSome = true ∧
    mapAll [("u1", [("type", FieldVal.str "DocumentType")]),
        ("u2", [("parent", FieldVal.str ""), ("visibleName", FieldVal.str "F"),
          ("type", FieldVal.str "CollectionType")])] = none := by
  refine ⟨by decide, by decide, by decide, by decide⟩

/-- C4 amended: `map` fails on any record that cannot be parsed (missing
required field, unquoted value, or unexpected `type`), and such a failure is
fatal to the whole build — no tree is produced and no other record is
incorporated; equivalently, `map` is the traversal that parses every record
followed by tree construction. -/
theorem c4_map_amended :
    (∀ (pre post : List (String × Metadata)) (r : String × Metadata),
      parseRecord r = none → mapAll (pre ++ r :: post) = none) ∧
    (∀ recs : List (String × Metadata),
      mapAll recs = (parseAll recs).bind (buildFrom Tree.new)) := by
  constructor
  · intro pre post r hr
    have bad : ∀ (t : Tree) (pre : List (String × Metadata)),
        mapRecords t (pre ++ r :: post) = none := by
      intro t pre
      induction pre generalizing t with
      | nil =>
        show (match parseRecord r with
          | none => none
          | some it =>
            match applyItem t it with
            | none => none
            | some t' => mapRecords t' post) = none
        rw [hr]
      | cons q rest ih =>
        show (match parseRecord q with
          | none => none
          | some it =>
            match applyItem t it with
            | none => none
            | some t' => mapRecords t' (rest ++ r :: post)) = none
        rcases hq : parseRecord q with _ | it
        · rfl
        · show (match applyItem t it with
            | none => none
            | some t' => mapRecords t' (rest ++ r :: post)) = none
          rcases ha : applyItem t it with _ | t'
          · simp only [ha]
          · simp only [ha]
            exact ih t'
    exact bad Tree.new pre
  · intro recs
    exact mapRecords_eq_parse_then_build recs Tree.new

/-- Witness for C4 amended: the first conjunct applied to the concrete
unparseable record, the second to a concrete record list. -/
theorem c4_map_amended_witness :
    mapAll [("u1", [("type", FieldVal.str "DocumentType")]),
        ("u2", [("parent", FieldVal.str ""), ("visibleName", FieldVal.str "F"),
          ("type", FieldVal.str "CollectionType")])] = none :=
  c4_map_amended.1 [] [("u2", [("parent", FieldVal.str ""),
    ("visibleName", FieldVal.str "F"), ("type", FieldVal.str "CollectionType")])]
    ("u1", [("type", FieldVal.str "DocumentType")]) (by decide)

end BookSafe
